import Mathlib

/-!
# go-imap-backup: the file-name sanitizer, the derived file names, the backup run

A shallow embedding of `sanitize` (src/utils.go) and of the function `main`
(src/main.go) from the connection to the IMAP server on, with the properties
the specification states about them.

* A Go `string` is a sequence of bytes.  It is embedded as a list of natural
  numbers, a byte being a number below 256.  `len(s)` is the length of the
  list and `s[i:j]` is `(s.take j).drop i`.
* `sanitize` calls the standard library: `regexp.ReplaceAllString`,
  `strings.TrimSpace`, and through it `unicode.IsSpace` and the decoders of
  `unicode/utf8`.  They are embedded from the Go sources, on bytes, with the
  treatment of invalid UTF-8 that the truncation `s[:50]` can produce.
* A loop of the Go code that moves through a string by the width of a rune is
  a recursion on a bound that starts at the length of the string; every round
  consumes at least one byte, and a lemma `..._fuel` states that a larger
  bound changes nothing.
* `main` talks to the server, the operator and the file system.  Their answers
  are the fields of `Env`; a run is the list of the calls it makes and the way
  it ends (`Run`).  `defer` and `log.Fatal` follow Go: a deferred call runs on
  return and on panic, and not when `log.Fatal` ends the process or when
  `main` blocks for ever on a channel.
-/

namespace ImapBackup

/-! ## Go strings -/

/-- A Go string: its bytes, in order. -/
abbrev GoString := List Nat

/-- The bytes of an ASCII literal (one byte per character, the character code). -/
def ascii (s : String) : GoString := s.toList.map Char.toNat

/-! ## Package `unicode/utf8` -/

/-- The constant `utf8.RuneError` (U+FFFD). -/
def RuneError : Nat := 0xFFFD

/-- The constant `utf8.RuneSelf`: bytes below it are single-byte runes. -/
def RuneSelf : Nat := 0x80

/-- The constant `utf8.UTFMax`: the longest encoding of a rune, in bytes. -/
def UTFMax : Nat := 4

/-- The tables `first` and `acceptRanges` of `unicode/utf8`, for a leading byte
at or above `RuneSelf`: the size of the encoding and the range accepted for the
second byte; `none` for the bytes marked `xx` (not a valid leading byte). -/
def first (s0 : Nat) : Option (Nat × Nat × Nat) :=
  if 0xC2 ≤ s0 ∧ s0 ≤ 0xDF then some (2, 0x80, 0xBF)
  else if s0 = 0xE0 then some (3, 0xA0, 0xBF)
  else if 0xE1 ≤ s0 ∧ s0 ≤ 0xEC then some (3, 0x80, 0xBF)
  else if s0 = 0xED then some (3, 0x80, 0x9F)
  else if 0xEE ≤ s0 ∧ s0 ≤ 0xEF then some (3, 0x80, 0xBF)
  else if s0 = 0xF0 then some (4, 0x90, 0xBF)
  else if 0xF1 ≤ s0 ∧ s0 ≤ 0xF3 then some (4, 0x80, 0xBF)
  else if s0 = 0xF4 then some (4, 0x80, 0x8F)
  else none

/-- `utf8.DecodeRuneInString`: the first rune of `s` and its width in bytes;
`(RuneError, 0)` for the empty string and `(RuneError, 1)` for an invalid
encoding. -/
def decodeRune : GoString → Nat × Nat
  | [] => (RuneError, 0)
  | s0 :: t =>
    if s0 < RuneSelf then (s0, 1)
    else
      match first s0 with
      | none => (RuneError, 1)
      | some (sz, lo, hi) =>
        if t.length + 1 < sz then (RuneError, 1)
        else
          match t with
          | [] => (RuneError, 1)
          | s1 :: t1 =>
            if s1 < lo ∨ hi < s1 then (RuneError, 1)
            else if sz ≤ 2 then (((s0 &&& 0x1F) <<< 6) ||| (s1 &&& 0x3F), 2)
            else
              match t1 with
              | [] => (RuneError, 1)
              | s2 :: t2 =>
                if s2 < 0x80 ∨ 0xBF < s2 then (RuneError, 1)
                else if sz ≤ 3 then
                  (((s0 &&& 0x0F) <<< 12) ||| ((s1 &&& 0x3F) <<< 6) ||| (s2 &&& 0x3F), 3)
                else
                  match t2 with
                  | [] => (RuneError, 1)
                  | s3 :: _ =>
                    if s3 < 0x80 ∨ 0xBF < s3 then (RuneError, 1)
                    else
                      (((s0 &&& 0x07) <<< 18) ||| ((s1 &&& 0x3F) <<< 12)
                        ||| ((s2 &&& 0x3F) <<< 6) ||| (s3 &&& 0x3F), 4)

/-- `utf8.RuneStart`: the byte is not a continuation byte. -/
def RuneStart (b : Nat) : Bool := b &&& 0xC0 != 0x80

/-- The loop `for start--; start >= lim; start-- { if RuneStart(s[start]) { break } }`
of `utf8.DecodeLastRuneInString`, entered with the already decremented `start`.
The loop body runs at most `UTFMax - 1` times, so that `UTFMax` rounds are
enough. -/
def backUp (s : GoString) (lim : Int) : Nat → Int → Int
  | 0, start => start
  | fuel + 1, start =>
    if start ≥ lim then
      if RuneStart (s.getD start.toNat 0) then start
      else backUp s lim fuel (start - 1)
    else start

/-- The part of `utf8.DecodeLastRuneInString` that looks for the start of the
last rune of a non-empty `s`: `lim := end - UTFMax`, clamped at zero, the loop
`backUp`, and the result clamped at zero. -/
def lastRuneStart (s : GoString) : Nat :=
  let stop : Int := s.length
  let lim : Int := if stop - UTFMax < 0 then 0 else stop - UTFMax
  let start := backUp s lim UTFMax (stop - 1 - 1)
  if start < 0 then 0 else start.toNat

/-- `utf8.DecodeLastRuneInString`: the last rune of `s` and its width. -/
def decodeLastRune (s : GoString) : Nat × Nat :=
  if s.length = 0 then (RuneError, 0)
  else if s.getD (s.length - 1) 0 < RuneSelf then (s.getD (s.length - 1) 0, 1)
  else if lastRuneStart s + (decodeRune (s.drop (lastRuneStart s))).2 ≠ s.length then
    (RuneError, 1)
  else decodeRune (s.drop (lastRuneStart s))

/-- The runes of `s` in the order of the loop `for _, r := range s`, bounded by
`fuel`. -/
def runesAux : Nat → GoString → List Nat
  | 0, _ => []
  | fuel + 1, s =>
    match s with
    | [] => []
    | _ :: _ => (decodeRune s).1 :: runesAux fuel (s.drop (decodeRune s).2)

/-- The runes (characters) of `s`. -/
def runes (s : GoString) : List Nat := runesAux s.length s

/-- `utf8.RuneCountInString` with the loop bounded by `fuel`; every round
consumes at least one byte. -/
def runeCountAux : Nat → GoString → Nat
  | 0, _ => 0
  | fuel + 1, s =>
    match s with
    | [] => 0
    | _ :: _ => 1 + runeCountAux fuel (s.drop (decodeRune s).2)

/-- `utf8.RuneCountInString`: the number of runes of `s`. -/
def runeCount (s : GoString) : Nat := runeCountAux s.length s

/-! ## Package `unicode` and `strings.TrimSpace` -/

/-- `unicode.IsSpace`: the Latin-1 switch, then the `White_Space` range table. -/
def isSpace (r : Nat) : Bool :=
  if r ≤ 0xFF then
    r == 0x09 || r == 0x0A || r == 0x0B || r == 0x0C || r == 0x0D || r == 0x20
      || r == 0x85 || r == 0xA0
  else
    r == 0x1680 || (0x2000 ≤ r && r ≤ 0x200A) || r == 0x2028 || r == 0x2029
      || r == 0x202F || r == 0x205F || r == 0x3000

/-- The table `asciiSpace` of package `strings`. -/
def asciiSpace (c : Nat) : Bool :=
  c == 0x09 || c == 0x0A || c == 0x0B || c == 0x0C || c == 0x0D || c == 0x20

/-- `strings.indexFunc(s, unicode.IsSpace, false)` as the loop
`for i, r := range s`: `rest` is `s[i:]`; the index of the first rune that is
not white space, `none` for Go's `-1`. -/
def indexFuncAux : Nat → Nat → GoString → Option Nat
  | 0, _, _ => none
  | fuel + 1, i, rest =>
    match rest with
    | [] => none
    | _ :: _ =>
      if isSpace (decodeRune rest).1 = false then some i
      else indexFuncAux fuel (i + (decodeRune rest).2) (rest.drop (decodeRune rest).2)

/-- `strings.indexFunc(s, unicode.IsSpace, false)`. -/
def indexFunc (s : GoString) : Option Nat := indexFuncAux s.length 0 s

/-- `strings.lastIndexFunc(s, unicode.IsSpace, false)`: the loop
`for i := len(s); i > 0; { r, size := DecodeLastRuneInString(s[0:i]); i -= size; ... }`. -/
def lastIndexFuncAux (s : GoString) : Nat → Nat → Option Nat
  | 0, _ => none
  | fuel + 1, i =>
    if i > 0 then
      if isSpace (decodeLastRune (s.take i)).1 = false then
        some (i - (decodeLastRune (s.take i)).2)
      else lastIndexFuncAux s fuel (i - (decodeLastRune (s.take i)).2)
    else none

/-- `strings.lastIndexFunc(s, unicode.IsSpace, false)`. -/
def lastIndexFunc (s : GoString) : Option Nat := lastIndexFuncAux s s.length s.length

/-- `strings.TrimLeftFunc(s, unicode.IsSpace)`. -/
def trimLeftFunc (s : GoString) : GoString :=
  match indexFunc s with
  | none => []
  | some i => s.drop i

/-- `strings.TrimRightFunc(s, unicode.IsSpace)`. -/
def trimRightFunc (s : GoString) : GoString :=
  match lastIndexFunc s with
  | some i =>
    if s.getD i 0 ≥ RuneSelf then s.take (i + (decodeRune (s.drop i)).2)
    else s.take (i + 1)
  | none => s.take 0

/-- `strings.TrimFunc(s, unicode.IsSpace)`. -/
def trimFunc (s : GoString) : GoString := trimRightFunc (trimLeftFunc s)

/-- The second loop of `strings.TrimSpace`, over `t = s[start:]`:
`for ; stop > start; stop-- { ... }`, with `stop` counted from `start`. -/
def trimSpaceStop (t : GoString) : Nat → GoString
  | 0 => t.take 0
  | stop + 1 =>
    if t.getD stop 0 ≥ RuneSelf then trimRightFunc (t.take (stop + 1))
    else if asciiSpace (t.getD stop 0) = false then t.take (stop + 1)
    else trimSpaceStop t stop

/-- `strings.TrimSpace`: the ASCII fast path from the left (`s` is `s[start:]`),
falling back to `TrimFunc` at the first byte that is not ASCII, then the fast
path from the right. -/
def TrimSpace : GoString → GoString
  | [] => []
  | c :: rest =>
    if c ≥ RuneSelf then trimFunc (c :: rest)
    else if asciiSpace c = false then trimSpaceStop (c :: rest) (c :: rest).length
    else TrimSpace rest

/-! ## `sanitize` (src/utils.go) -/

/-- The character class of the regular expression in `sanitize`:
`<`, `>`, `:`, `"`, `/`, `\`, `|`, `?`, `*`, carriage return and line feed. -/
def illegal (b : Nat) : Bool :=
  b == 0x3C || b == 0x3E || b == 0x3A || b == 0x22 || b == 0x2F || b == 0x5C
    || b == 0x7C || b == 0x3F || b == 0x2A || b == 0x0D || b == 0x0A

/-- The loop of `re.ReplaceAllString(s, "")` for the class `illegal` repeated
one or more times, bounded by `fuel`.  The regular expression reads its input
rune by rune, as `utf8.DecodeRuneInString` decodes it: a rune of the class
belongs to a match, and every match is replaced by the empty string; the
bytes of any other rune are copied. -/
def replaceAllIllegalAux : Nat → GoString → GoString
  | 0, _ => []
  | fuel + 1, s =>
    match s with
    | [] => []
    | _ :: _ =>
      if illegal (decodeRune s).1 = true then
        replaceAllIllegalAux fuel (s.drop (decodeRune s).2)
      else s.take (decodeRune s).2 ++ replaceAllIllegalAux fuel (s.drop (decodeRune s).2)

/-- `re.ReplaceAllString(s, "")` for the regular expression of `sanitize`. -/
def replaceAllIllegal (s : GoString) : GoString := replaceAllIllegalAux s.length s

/-- The function `sanitize` of src/utils.go. -/
def sanitize (s : GoString) : GoString :=
  let s := replaceAllIllegal s
  let s := if s.length > 50 then s.take 50 else s
  TrimSpace s

/-- The byte at index `i` of `s`, if any, is not a continuation byte: a rune
decoded forward from an earlier index cannot reach past `i`. -/
def Boundary (s : GoString) (i : Nat) : Prop :=
  ∀ c, (s.drop i).head? = some c → c < 0x80 ∨ 0xBF < c

instance (s : GoString) (i : Nat) : Decidable (Boundary s i) :=
  decidable_of_iff ((s.drop i).head?.all (fun c => decide (c < 0x80 ∨ 0xBF < c)) = true) (by
    unfold Boundary
    cases (s.drop i).head? <;> simp)

/-- A string with no white space at either end: it is empty, or neither its
first rune (decoded forward) nor its last rune (decoded backward) is white
space. -/
def Trimmed (t : GoString) : Prop :=
  t = [] ∨ (isSpace (decodeRune t).1 = false ∧ isSpace (decodeLastRune t).1 = false)

instance (t : GoString) : Decidable (Trimmed t) := by
  unfold Trimmed
  infer_instance

/-- The first `n` characters (runes) of `s`, decoded as the loop
`for _, r := range s` does. -/
def takeRunes : Nat → GoString → GoString
  | 0, _ => []
  | n + 1, s =>
    match s with
    | [] => []
    | _ :: _ => s.take (decodeRune s).2 ++ takeRunes n (s.drop (decodeRune s).2)

/-- Reference, in the words of the spec (section 4.1): delete every forbidden
character, keep the first 50 characters of the stripped string, remove leading
and trailing white space. -/
def sanitizeSpec (s : GoString) : GoString :=
  TrimSpace (takeRunes 50 (replaceAllIllegal s))

/-! ## Messages and the derived file name (src/main.go, lines 233-259) -/

/-- `imap.Address`: the two fields read by `main`. -/
structure Address where
  MailboxName : GoString
  HostName : GoString
deriving DecidableEq

/-- A `time.Time`, as far as `main` reads it: the result of `IsZero()`, and
the date and the clock of the time in its own location, which `Format`
prints.  `IsZero()` compares the instant with January 1 of year 1, 00:00:00
UTC; the zone is not part of the model, so that its result is a field of its
own.  The year of a date read from an envelope is not negative. -/
structure Time where
  isZero : Bool
  Year : Nat
  Month : Nat
  Day : Nat
  Hour : Nat
  Minute : Nat
  Second : Nat
deriving DecidableEq

/-- `imap.Envelope`: the fields read by `main`. -/
structure Envelope where
  Date : Time
  Subject : GoString
  From : List Address
deriving DecidableEq

/-- `imap.Message`: the sequence number, the envelope (a pointer, `none` for
nil) and the result of `GetBody(section)` (`none` for nil). -/
structure Message where
  SeqNum : Nat
  Envelope : Option Envelope
  Body : Option GoString
deriving DecidableEq

/-- The loop of `fmt.fmtInteger` for base 10, which writes the digits from the
last one: `for u >= 10 { next := u / 10; buf[i] = byte('0' + u - next*10); u = next }`,
then the first digit `'0' + u`.  The bound `fuel` starts at `u`, and every
round divides `u` by ten. -/
def fmtIntegerAux : Nat → Nat → GoString → GoString
  | 0, u, buf => (0x30 + u) :: buf
  | fuel + 1, u, buf =>
    if u ≥ 10 then fmtIntegerAux fuel (u / 10) ((0x30 + u - u / 10 * 10) :: buf)
    else (0x30 + u) :: buf

/-- The verb `%d` of `fmt.Sprintf` for an unsigned number. -/
def decimal (n : Nat) : GoString := fmtIntegerAux n n []

/-- The function `appendInt` of package `time` for a number that is not
negative: its decimal digits, padded with zeros on the left up to `width`. -/
def appendInt (x : Nat) (width : Nat) : GoString :=
  List.replicate (width - (decimal x).length) 0x30 ++ decimal x

/-- The method `Format` of `time.Time` for the layout `"20060102150405"`: the
year in four digits, then month, day, hour, minute and second in two digits
each. -/
def Time.Format (t : Time) : GoString :=
  appendInt t.Year 4 ++ appendInt t.Month 2 ++ appendInt t.Day 2 ++ appendInt t.Hour 2
    ++ appendInt t.Minute 2 ++ appendInt t.Second 2

/-- The file name computed for a message in the archiving loop: the defaults,
their replacement from the envelope, `sanitize` on the three parts and
`fmt.Sprintf("email-%d_%s_%s_%s.eml", ...)`. -/
def fileName (msg : Message) : GoString :=
  let subject := ascii "no-subject"
  let from_ := ascii "unknown"
  let timestamp := ascii "unknown-date"
  let subject :=
    match msg.Envelope with
    | some envelope => if envelope.Subject ≠ [] then envelope.Subject else subject
    | none => subject
  let from_ :=
    match msg.Envelope with
    | some envelope =>
      match envelope.From with
      | fromAddr :: _ => fromAddr.MailboxName ++ ascii "@" ++ fromAddr.HostName
      | [] => from_
    | none => from_
  let timestamp :=
    match msg.Envelope with
    | some envelope => if !envelope.Date.isZero then envelope.Date.Format else timestamp
    | none => timestamp
  let safeSubject := sanitize subject
  let safeFrom := sanitize from_
  let safeTimestamp := sanitize timestamp
  ascii "email-" ++ decimal msg.SeqNum ++ ascii "_" ++ safeTimestamp ++ ascii "_" ++ safeFrom
    ++ ascii "_" ++ safeSubject ++ ascii ".eml"

/-- The name of the compressed file: `gzPath := filepath + ".gz"`, relative to
the backup directory. -/
def gzName (msg : Message) : GoString := fileName msg ++ ascii ".gz"

/-- Reference: the number that a decimal numeral writes.  A numeral is a
string of one or more digits `0` to `9` that does not start with `0`, except
the numeral `0` itself; any other string writes no number. -/
def readDecimal (s : GoString) : Option Nat :=
  if s = [] then none
  else if s.all (fun d => decide (0x30 ≤ d ∧ d ≤ 0x39)) = false then none
  else if s.head? = some 0x30 ∧ 1 < s.length then none
  else some (s.foldl (fun value d => 10 * value + (d - 0x30)) 0)

/-- The digit of `x` at the decimal place `place` (1, 10, 100, ...), as a
character. -/
def digitAt (x place : Nat) : Nat := 0x30 + x / place % 10

/-- Reference, in the words of the spec (section 4.2): the compact numeric
timestamp `YYYYMMDDhhmmss`, fourteen digits, four of the year and two each of
month, day, hour, minute and second. -/
def specCompact (t : Time) : GoString :=
  [digitAt t.Year 1000, digitAt t.Year 100, digitAt t.Year 10, digitAt t.Year 1,
   digitAt t.Month 10, digitAt t.Month 1, digitAt t.Day 10, digitAt t.Day 1,
   digitAt t.Hour 10, digitAt t.Hour 1, digitAt t.Minute 10, digitAt t.Minute 1,
   digitAt t.Second 10, digitAt t.Second 1]

/-- The date and the clock of a `time.Time` are those of a calendar date with
a year of at most four digits, as every date parsed from an envelope is. -/
def Time.inCalendar (t : Time) : Prop :=
  t.Year ≤ 9999 ∧ 1 ≤ t.Month ∧ t.Month ≤ 12 ∧ 1 ≤ t.Day ∧ t.Day ≤ 31 ∧ t.Hour ≤ 23
    ∧ t.Minute ≤ 59 ∧ t.Second ≤ 59

instance (t : Time) : Decidable t.inCalendar := by
  unfold Time.inCalendar
  infer_instance

/-- The dates of a message, if it has an envelope, are calendar dates. -/
def Message.inCalendar (msg : Message) : Prop :=
  ∀ envelope, msg.Envelope = some envelope → envelope.Date.inCalendar

/-- Reference, in the words of the spec (section 4.2): the timestamp component
`T`, the sanitized compact timestamp or the literal `unknown-date` when no
timestamp is available. -/
def specTimestamp (msg : Message) : GoString :=
  match msg.Envelope with
  | none => ascii "unknown-date"
  | some envelope =>
    if envelope.Date.isZero then ascii "unknown-date" else sanitize (specCompact envelope.Date)

/-- Reference, in the words of the spec (section 4.2): the sender component
`F`, the sanitized `localpart@domain` of the first sender or the literal
`unknown` when the sender is absent. -/
def specFrom (msg : Message) : GoString :=
  match msg.Envelope with
  | none => ascii "unknown"
  | some envelope =>
    match envelope.From with
    | [] => ascii "unknown"
    | a :: _ => sanitize (a.MailboxName ++ ascii "@" ++ a.HostName)

/-- Reference, in the words of the spec (section 4.2): the subject component
`S`, the sanitized subject or the literal `no-subject` when the subject is
absent or empty. -/
def specSubject (msg : Message) : GoString :=
  match msg.Envelope with
  | none => ascii "no-subject"
  | some envelope =>
    if envelope.Subject = [] then ascii "no-subject" else sanitize envelope.Subject

/-- The messages of the end-to-end scenario of section 8: sender
`alice@example.com`, the date and the clock of `date`. -/
def scenarioMessage (seq : Nat) (subject : String) (date : Time) : Message :=
  { SeqNum := seq
    Envelope := some
      { Date := { date with isZero := false }
        Subject := ascii subject
        From := [{ MailboxName := ascii "alice", HostName := ascii "example.com" }] }
    Body := some (ascii "body") }

/-- The date of the scenario, January 1, 2025, 12:00:00. -/
def scenarioDate : Time :=
  { isZero := false, Year := 2025, Month := 1, Day := 1, Hour := 12, Minute := 0, Second := 0 }

/-! ## The archiving loop and the run (src/main.go, lines 100-319) -/

/-- What the file system answers while one message is archived; `true` stands
for a call that returns no error: `os.Create`, `io.Copy`, `compressGZIP`,
`os.Remove`. -/
structure Outcome where
  create : Bool
  copy : Bool
  compress : Bool
  remove : Bool
deriving DecidableEq

/-- The calls of a run that are visible outside `main`. -/
inductive Event where
  | dialTLS
  | login
  | list
  | println (text : GoString)
  | promptMailbox
  | promptRemove
  | mkdirAll (dir : GoString)
  | select (mailbox : GoString)
  | fetch (messages : Nat)
  | waitFetch
  | create (name : GoString)
  | copy (name : GoString)
  | compressGZIP (name : GoString)
  | remove (name : GoString)
  | logPrintf
  | addNum (seqNum : Nat)
  | store (set : List Nat)
  | expunge
  | logout
  | spinnerStop
  | logFatal
deriving DecidableEq

/-- The events of the body of the archiving loop. -/
def Event.isArchiving : Event → Bool
  | .create _ | .copy _ | .compressGZIP _ | .remove _ | .logPrintf | .addNum _ => true
  | _ => false

/-- The state of the archiving loop: the events so far, the numbers added to
`toDelete` (an `imap.SeqSet`, a set of sequence numbers) in the order of the
calls of `AddNum`, and whether the loop ended in a run-time panic. -/
structure Loop where
  trace : List Event
  toDelete : List Nat
  panicked : Bool
deriving DecidableEq

/-- The closure called for one message (lines 228-297), for a message that is
not nil: the events and the new value of `toDelete`. -/
def handleMessage (msg : Message) (o : Outcome) (toDelete : List Nat) : List Event × List Nat :=
  let filename := fileName msg
  let rawData := msg.Body
  if o.create = false then ([.create filename, .logPrintf], toDelete)
  else
    let copied : List Event := match rawData with
      | some _ => [.copy filename]
      | none => []
    let err : Bool := match rawData with
      | some _ => !o.copy
      | none => false
    if err = true then ([.create filename] ++ copied ++ [.logPrintf], toDelete)
    else
      let zipped : List Event :=
        if o.compress = false then [.compressGZIP filename, .logPrintf]
        else if o.remove = false then [.compressGZIP filename, .remove filename, .logPrintf]
        else [.compressGZIP filename, .remove filename]
      ([.create filename] ++ copied ++ zipped ++ [.addNum msg.SeqNum], toDelete ++ [msg.SeqNum])

/-- The loop `for msg := range messages` (lines 225-298).  An element of the
stream is a pointer, `none` for nil, paired with the answers of the file
system.  Line 226 reads `msg.SeqNum` before the closure tests `msg == nil`, a
nil pointer dereference that panics. -/
def archiveLoop : List (Option (Message × Outcome)) → List Event → List Nat → Loop
  | [], trace, toDelete => ⟨trace, toDelete, false⟩
  | none :: _, trace, toDelete => ⟨trace, toDelete, true⟩
  | some (msg, o) :: rest, trace, toDelete =>
    archiveLoop rest (trace ++ (handleMessage msg o toDelete).1) (handleMessage msg o toDelete).2

/-- The archive outcome *archived* of the spec: the file was created, the body
was copied (or there was no body) and the compression succeeded. -/
def archived (msg : Message) (o : Outcome) : Bool :=
  o.create && (msg.Body.isNone || o.copy) && o.compress

/-- The `.eml` file was created and the body was copied into it (or there was
no body). -/
def written (msg : Message) (o : Outcome) : Bool :=
  o.create && (msg.Body.isNone || o.copy)

/-- How `main` ends: it returns, `log.Fatal` calls `os.Exit(1)`, a run-time
panic unwinds it, or it blocks for ever on a channel and never ends. -/
inductive Exit where
  | returned
  | fatal
  | panicked
  | hung
deriving DecidableEq

/-- The result of `prompt.Run()`: an error, or the selected item. -/
inductive Prompt where
  | failed
  | selected (item : GoString)
deriving DecidableEq

/-- What the outside world answers during a run; `true` stands for a call that
returns no error.  `mailboxes` are the names that `c.List` has to deliver,
`select` is the number of messages of the selected mailbox (`none` for an
error), `messages` is the stream that `c.Fetch` delivers. -/
structure Env where
  user : GoString
  dial : Bool
  login : Bool
  list : Bool
  mailboxes : List GoString
  mailboxPrompt : Prompt
  removePrompt : Prompt
  mkdirAll : Bool
  select : Option Nat
  messages : List (Option (Message × Outcome))
  fetch : Bool
  store : Bool
  expunge : Bool

/-- A finished run, or the rest of one: its events and the way it ends. -/
structure Run where
  trace : List Event
  exit : Exit
deriving DecidableEq

/-- One call, followed by the rest of the run. -/
def step (call : Event) (rest : Run) : Run := ⟨call :: rest.trace, rest.exit⟩

/-- Several calls, followed by the rest of the run. -/
def steps (calls : List Event) (rest : Run) : Run := ⟨calls ++ rest.trace, rest.exit⟩

/-- The statement `defer call` followed by the rest of `main`: the deferred
call runs when `main` returns and when a panic unwinds it; `os.Exit` ends the
process without running it, and a `main` that blocks for ever never runs it. -/
def defer (call : Event) (rest : Run) : Run :=
  match rest.exit with
  | .fatal => rest
  | .hung => rest
  | _ => ⟨rest.trace ++ [call], rest.exit⟩

/-- A `return` of `main`. -/
def ret : Run := ⟨[], .returned⟩

/-- The call `log.Fatal(err)`, which ends in `os.Exit(1)`. -/
def logFatal : Run := ⟨[.logFatal], .fatal⟩

/-- The closure `exitWithError` (lines 104-107): `s.Stop()`, `log.Fatal(err)`. -/
def exitWithError : Run := step .spinnerStop logFatal

/-- A run-time panic. -/
def panic : Run := ⟨[], .panicked⟩

/-- A receive that blocks for ever. -/
def hang : Run := ⟨[], .hung⟩

/-- Lines 304-316: the requests `Store` and `Expunge`, each followed by a log
line when it fails, issued when removal was requested. -/
def removeOnServer (env : Env) (shouldRemoveMessagesOnServer : Bool) (toDelete : List Nat)
    (rest : Run) : Run :=
  if shouldRemoveMessagesOnServer = true then
    step (.store toDelete) <|
    steps (if env.store = false then [.logPrintf] else []) <|
    step .expunge <|
    steps (if env.expunge = false then [.logPrintf] else []) <|
    rest
  else rest

/-- Every call up to the removal succeeds and the operator asks for it: the
connection, the login, the listing of at least one and at most 50 mailboxes,
the choice of a mailbox, the removal choice `Yes`, the directory, the
selection of a mailbox that is not empty, and the fetch. -/
def Env.reachesRemoval (env : Env) : Prop :=
  env.dial = true ∧ env.login = true ∧ env.list = true ∧ 0 < env.mailboxes.length
    ∧ env.mailboxes.length ≤ 50
    ∧ (match env.mailboxPrompt with
        | .selected mailbox => mailbox ≠ []
        | .failed => False)
    ∧ env.removePrompt = .selected (ascii "Yes") ∧ env.mkdirAll = true
    ∧ (match env.select with
        | some messages => messages ≠ 0
        | none => False)
    ∧ env.fetch = true

instance (env : Env) : Decidable env.reachesRemoval := by
  unfold Env.reachesRemoval
  cases env.mailboxPrompt <;> cases env.select <;> infer_instance

/-- Lines 204-319 of `main`: the fetch of all messages, the archiving loop,
the result of the fetch, the removal on the server. -/
def fetchAndArchive (env : Env) (shouldRemoveMessagesOnServer : Bool) (messages : Nat) : Run :=
  step (.fetch messages) <|
  let loop := archiveLoop env.messages [] []
  steps loop.trace <|
  if loop.panicked = true then panic
  else
  step .waitFetch <|
  if env.fetch = false then logFatal
  else
  removeOnServer env shouldRemoveMessagesOnServer loop.toDelete ret

/-- Lines 178-202 of `main`: the backup directory, the second spinner with its
deferred `s.Stop()`, the selection of the mailbox. -/
def selectAndFetch (env : Env) (selectedMailbox : GoString)
    (shouldRemoveMessagesOnServer : Bool) : Run :=
  let backupDir := ascii "backups/" ++ sanitize env.user ++ ascii "/" ++ sanitize selectedMailbox
  step (.mkdirAll backupDir) <|
  if env.mkdirAll = false then logFatal
  else
  defer .spinnerStop <|
  step (.select selectedMailbox) <|
  match env.select with
  | none => logFatal
  | some messages =>
  if messages = 0 then step (.println (ascii "No messages available")) ret
  else fetchAndArchive env shouldRemoveMessagesOnServer messages

/-- Lines 133-176 of `main`: the list of mailboxes and the two prompts. -/
def promptAndSelect (env : Env) : Run :=
  step .spinnerStop <|
  if env.mailboxes.length = 0 then step (.println (ascii "No mailboxes found")) ret
  else
  step .promptMailbox <|
  match env.mailboxPrompt with
  | .failed => logFatal
  | .selected selectedMailbox =>
  if selectedMailbox = [] then ret
  else
  step .promptRemove <|
  match env.removePrompt with
  | .failed => logFatal
  | .selected shouldRemoveMessagesOnServerSelection =>
  if shouldRemoveMessagesOnServerSelection = ascii "Cancel"
      ∨ shouldRemoveMessagesOnServerSelection = [] then ret
  else
  let shouldRemoveMessagesOnServer : Bool :=
    decide (shouldRemoveMessagesOnServerSelection = ascii "Yes")
  selectAndFetch env selectedMailbox shouldRemoveMessagesOnServer

/-- The function `main` from the call of `client.DialTLS` (line 110) on: the
connection with its deferred `c.Logout()`, the login, the listing of the
mailboxes (lines 110-131), then the rest of the run.  The channel
`mailboxInfos` has 50 slots (line 122) and is read only from line 141 on,
after the receive `<-done` of line 129: with more than 50 mailboxes `c.List`
blocks on a send, never reports its result, and `main` blocks at line 129. -/
def main (env : Env) : Run :=
  step .dialTLS <|
  if env.dial = false then exitWithError
  else
  defer .logout <|
  step .login <|
  if env.login = false then exitWithError
  else
  step .list <|
  if env.mailboxes.length > 50 then hang
  else
  if env.list = false then exitWithError
  else promptAndSelect env

/-- The answers of a run in which every call succeeds: the mailbox `INBOX` of
the end-to-end scenario with its messages 1 and 3, removal requested. -/
def scenarioEnv : Env :=
  { user := ascii "alice@example.com"
    dial := true
    login := true
    list := true
    mailboxes := [ascii "INBOX"]
    mailboxPrompt := .selected (ascii "INBOX")
    removePrompt := .selected (ascii "Yes")
    mkdirAll := true
    select := some 2
    messages :=
      [some (scenarioMessage 1 "Hi" scenarioDate,
          { create := true, copy := true, compress := true, remove := true }),
       some (scenarioMessage 3 "Re: Hi" scenarioDate,
          { create := true, copy := true, compress := true, remove := true })]
    fetch := true
    store := true
    expunge := true }

/-- The scenario with the removal choice "No". -/
def noRemovalEnv : Env := { scenarioEnv with removePrompt := .selected (ascii "No") }

/-- The scenario with a fetch call that reports an error at the end. -/
def fetchErrorEnv : Env := { scenarioEnv with fetch := false }

/-- The scenario with a login that fails. -/
def loginFailureEnv : Env := { scenarioEnv with login := false }

/-- The scenario with a nil handle in front of the second message. -/
def nilHandleEnv : Env :=
  { scenarioEnv with
    messages :=
      [some (scenarioMessage 1 "Hi" scenarioDate,
          { create := true, copy := true, compress := true, remove := true }),
       none,
       some (scenarioMessage 3 "Re: Hi" scenarioDate,
          { create := true, copy := true, compress := true, remove := true })] }

/-- The scenario of section 8 with three outcomes: message 1 is archived, the
file of message 2 cannot be created, the compression of message 3 fails. -/
def mixedEnv : Env :=
  { scenarioEnv with
    select := some 3
    messages :=
      [some (scenarioMessage 1 "Hi" scenarioDate,
          { create := true, copy := true, compress := true, remove := true }),
       some (scenarioMessage 2 "" scenarioDate,
          { create := false, copy := true, compress := true, remove := true }),
       some (scenarioMessage 3 "Re: Hi" scenarioDate,
          { create := true, copy := true, compress := false, remove := true })] }

/-! ## The decoder of `unicode/utf8` -/

theorem first_some {s0 sz lo hi : Nat} (h : first s0 = some (sz, lo, hi)) :
    0xC2 ≤ s0 ∧ 2 ≤ sz ∧ sz ≤ 4 ∧ 0x80 ≤ lo ∧ hi ≤ 0xBF := by
  unfold first at h
  split_ifs at h <;> simp at h <;> omega

theorem isSpace_RuneError : isSpace RuneError = false := by decide

theorem decodeRune_width_le (s : GoString) : (decodeRune s).2 ≤ s.length := by
  unfold decodeRune
  repeat' split
  all_goals simp_all

theorem decodeRune_width_pos (s : GoString) (h : s ≠ []) : 1 ≤ (decodeRune s).2 := by
  unfold decodeRune
  split
  · exact absurd rfl h
  · repeat' split
    all_goals simp

/-- The shapes of a decoding: the empty string, an ASCII byte, an invalid
encoding, or a rune of two or more bytes with a leading byte from `0xC2`. -/
theorem decodeRune_cases (s : GoString) :
    (s = [] ∧ decodeRune s = (RuneError, 0)) ∨
    (∃ s0 t, s = s0 :: t ∧ s0 < RuneSelf ∧ decodeRune s = (s0, 1)) ∨
    (∃ s0 t, s = s0 :: t ∧ RuneSelf ≤ s0 ∧ decodeRune s = (RuneError, 1)) ∨
    (∃ s0 t, s = s0 :: t ∧ 0xC2 ≤ s0 ∧ 2 ≤ (decodeRune s).2) := by
  rcases s with _ | ⟨s0, t⟩
  · left; exact ⟨rfl, rfl⟩
  · right
    by_cases h0 : s0 < RuneSelf
    · left; exact ⟨s0, t, rfl, h0, by simp [decodeRune, h0]⟩
    · right
      have h0' : RuneSelf ≤ s0 := Nat.le_of_not_lt h0
      simp only [decodeRune, if_neg h0]
      split
      · left; exact ⟨s0, t, rfl, h0', rfl⟩
      · rename_i sz lo hi hf
        have hfs := first_some hf
        repeat' split
        all_goals first
          | (left; exact ⟨s0, _, rfl, h0', rfl⟩)
          | (right; exact ⟨s0, _, rfl, hfs.1, by simp⟩)

/-- A width of one: an ASCII byte, or an invalid encoding. -/
theorem decodeRune_width_one (s : GoString) (h : (decodeRune s).2 = 1) :
    (decodeRune s).1 = RuneError ∨
      ∃ t, s = (decodeRune s).1 :: t ∧ (decodeRune s).1 < RuneSelf := by
  rcases decodeRune_cases s with ⟨_, h1⟩ | ⟨s0, t, hs, h0, h1⟩ | ⟨s0, t, hs, h0, h1⟩ |
    ⟨s0, t, hs, h0, h1⟩
  · rw [h1] at h; simp at h
  · right; rw [h1]; exact ⟨t, hs, h0⟩
  · left; rw [h1]
  · omega

/-- A byte at or above `RuneSelf` that is not followed by a continuation byte
is an invalid encoding of width one. -/
theorem decodeRune_lone (b : Nat) (rest : GoString) (hb : RuneSelf ≤ b)
    (hrest : ∀ c, rest.head? = some c → c < 0x80 ∨ 0xBF < c) :
    decodeRune (b :: rest) = (RuneError, 1) := by
  have h0 : ¬ b < RuneSelf := Nat.not_lt.mpr hb
  rcases rest with _ | ⟨s1, t1⟩
  · simp only [decodeRune, if_neg h0]
    repeat' split
    all_goals rfl
  · have h1 := hrest s1 rfl
    simp only [decodeRune, if_neg h0]
    split
    · rfl
    · rename_i sz lo hi hf
      have hfs := first_some hf
      split
      · rfl
      · rw [if_pos (by omega)]

/-- A rune of width two or more is decoded from its own bytes alone. -/
theorem decodeRune_append (u v : GoString) (h : 2 ≤ (decodeRune u).2) :
    decodeRune (u ++ v) = decodeRune u := by
  rcases u with _ | ⟨s0, t⟩
  · simp [decodeRune] at h
  by_cases h0 : s0 < RuneSelf
  · simp [decodeRune, h0] at h
  cases hf : first s0 with
  | none => simp [decodeRune, h0, hf] at h
  | some p =>
    obtain ⟨sz, lo, hi⟩ := p
    have hfs := first_some hf
    rcases t with _ | ⟨s1, _ | ⟨s2, _ | ⟨s3, t3⟩⟩⟩
    all_goals
      simp only [decodeRune, List.cons_append, List.nil_append, List.length_cons,
        List.length_append, List.length_nil, hf, if_neg h0] at h ⊢
    all_goals
      split_ifs at h ⊢
    all_goals first
      | rfl
      | omega

/-! ## The value of a decoded rune -/

theorem and_mask (x : Nat) :
    x &&& 0x3F = x % 64 ∧ x &&& 0x1F = x % 32 ∧ x &&& 0x0F = x % 16 ∧ x &&& 0x07 = x % 8 :=
  ⟨Nat.and_pow_two_sub_one_eq_mod x 6, Nat.and_pow_two_sub_one_eq_mod x 5,
    Nat.and_pow_two_sub_one_eq_mod x 4, Nat.and_pow_two_sub_one_eq_mod x 3⟩

theorem or_low (a b : Nat) (k : Nat) (hb : b < 2 ^ k) : (a <<< k) ||| b = a * 2 ^ k + b := by
  rw [Nat.shiftLeft_eq, Nat.mul_comm a, Nat.mul_add_lt_is_or hb]

/-- The rune of a two-byte encoding, in arithmetic. -/
theorem rune2_eq (s0 s1 : Nat) :
    ((s0 &&& 0x1F) <<< 6) ||| (s1 &&& 0x3F) = s0 % 32 * 64 + s1 % 64 := by
  obtain ⟨h6, h5, _, _⟩ := and_mask s0
  rw [(and_mask s1).1, h5, or_low _ _ 6 (by omega)]
  omega

/-- The rune of a three-byte encoding, in arithmetic. -/
theorem rune3_eq (s0 s1 s2 : Nat) :
    ((s0 &&& 0x0F) <<< 12) ||| ((s1 &&& 0x3F) <<< 6) ||| (s2 &&& 0x3F)
      = s0 % 16 * 4096 + s1 % 64 * 64 + s2 % 64 := by
  rw [(and_mask s0).2.2.1, (and_mask s1).1, (and_mask s2).1]
  have h1 : (s1 % 64) <<< 6 = s1 % 64 * 64 := by rw [Nat.shiftLeft_eq]
  rw [h1, or_low _ _ 12 (by omega)]
  have h2 : s0 % 16 * 2 ^ 12 + s1 % 64 * 64 = (s0 % 16 * 64 + s1 % 64) <<< 6 := by
    rw [Nat.shiftLeft_eq]; omega
  rw [h2, or_low _ _ 6 (by omega)]
  omega

/-- The rune of a four-byte encoding, in arithmetic. -/
theorem rune4_eq (s0 s1 s2 s3 : Nat) :
    ((s0 &&& 0x07) <<< 18) ||| ((s1 &&& 0x3F) <<< 12) ||| ((s2 &&& 0x3F) <<< 6) ||| (s3 &&& 0x3F)
      = s0 % 8 * 262144 + s1 % 64 * 4096 + s2 % 64 * 64 + s3 % 64 := by
  rw [(and_mask s0).2.2.2, (and_mask s1).1, (and_mask s2).1, (and_mask s3).1]
  have h1 : (s1 % 64) <<< 12 = s1 % 64 * 4096 := by rw [Nat.shiftLeft_eq]
  have h2 : (s2 % 64) <<< 6 = s2 % 64 * 64 := by rw [Nat.shiftLeft_eq]
  rw [h1, h2, or_low _ _ 18 (by omega)]
  have h3 : s0 % 8 * 2 ^ 18 + s1 % 64 * 4096 = (s0 % 8 * 64 + s1 % 64) <<< 12 := by
    rw [Nat.shiftLeft_eq]; omega
  rw [h3, or_low _ _ 12 (by omega)]
  have h4 : (s0 % 8 * 64 + s1 % 64) * 2 ^ 12 + s2 % 64 * 64
      = (s0 % 8 * 4096 + s1 % 64 * 64 + s2 % 64) <<< 6 := by
    rw [Nat.shiftLeft_eq]; omega
  rw [h4, or_low _ _ 6 (by omega)]
  omega

/-- The entries of the table `first`, leading byte by leading byte. -/
theorem first_some_cases {s0 sz lo hi : Nat} (h : first s0 = some (sz, lo, hi)) :
    (sz = 2 ∧ 0xC2 ≤ s0 ∧ s0 ≤ 0xDF) ∨ (sz = 3 ∧ s0 = 0xE0 ∧ lo = 0xA0) ∨
    (sz = 3 ∧ 0xE1 ≤ s0 ∧ s0 ≤ 0xEF) ∨ (sz = 4 ∧ s0 = 0xF0 ∧ lo = 0x90) ∨
    (sz = 4 ∧ 0xF1 ≤ s0 ∧ s0 ≤ 0xF4) := by
  unfold first at h
  split_ifs at h <;> simp at h <;> omega

/-- A rune of two or more bytes is not an ASCII character: the decoder accepts
no overlong encoding. -/
theorem decodeRune_ge (u : GoString) (h : 2 ≤ (decodeRune u).2) :
    RuneSelf ≤ (decodeRune u).1 := by
  rcases u with _ | ⟨s0, t⟩
  · simp [decodeRune] at h
  by_cases h0 : s0 < RuneSelf
  · simp [decodeRune, h0] at h
  cases hf : first s0 with
  | none => simp [decodeRune, h0, hf] at h
  | some p =>
    obtain ⟨sz, lo, hi⟩ := p
    have hfs := first_some_cases hf
    have hfb := first_some hf
    rcases t with _ | ⟨s1, _ | ⟨s2, _ | ⟨s3, t3⟩⟩⟩
    all_goals
      simp only [decodeRune, List.length_cons, List.length_nil, hf, if_neg h0, rune2_eq,
        rune3_eq, rune4_eq] at h ⊢
    all_goals
      split_ifs at h ⊢
    all_goals
      simp only [RuneSelf, RuneError] at *
    all_goals omega

/-! ## The replacement of the forbidden characters -/

theorem illegal_lt (b : Nat) (h : illegal b = true) : b < RuneSelf := by
  unfold illegal at h
  simp only [Bool.or_eq_true, beq_iff_eq] at h
  simp only [RuneSelf]
  omega

theorem illegal_false_of_ge (b : Nat) (h : RuneSelf ≤ b) : illegal b = false := by
  cases hb : illegal b with
  | false => rfl
  | true => have := illegal_lt b hb; omega

/-- The bytes of a rune of two or more bytes are at or above `RuneSelf`. -/
theorem decodeRune_bytes_ge (u : GoString) (h : 2 ≤ (decodeRune u).2) :
    ∀ b ∈ u.take (decodeRune u).2, RuneSelf ≤ b := by
  rcases u with _ | ⟨s0, t⟩
  · simp [decodeRune] at h
  by_cases h0 : s0 < RuneSelf
  · simp [decodeRune, h0] at h
  cases hf : first s0 with
  | none => simp [decodeRune, h0, hf] at h
  | some p =>
    obtain ⟨sz, lo, hi⟩ := p
    have hfb := first_some hf
    have h0' : RuneSelf ≤ s0 := Nat.le_of_not_lt h0
    rcases t with _ | ⟨s1, _ | ⟨s2, _ | ⟨s3, t3⟩⟩⟩
    all_goals
      simp only [decodeRune, List.length_cons, List.length_nil, hf, if_neg h0] at h ⊢
    all_goals
      split_ifs at h ⊢
    all_goals
      first
      | omega
      | (intro b hb
         simp only [List.take, List.mem_cons, List.mem_nil_iff, or_false, List.not_mem_nil] at hb
         simp only [RuneSelf] at *
         omega)

/-- The replacement deletes exactly the bytes of the forbidden characters: a
rune of the class is an ASCII byte, and no byte of another rune is in the
class. -/
theorem replaceAllIllegalAux_eq_filter (fuel : Nat) (s : GoString) (h : s.length ≤ fuel) :
    replaceAllIllegalAux fuel s = s.filter (fun b => !illegal b) := by
  induction fuel generalizing s with
  | zero =>
    have : s = [] := List.length_eq_zero.mp (Nat.le_zero.mp h)
    subst this; rfl
  | succ n ih =>
    rcases s with _ | ⟨c, t⟩
    · rfl
    · have hw := decodeRune_width_pos (c :: t) (by simp)
      have hlen : ((c :: t).drop (decodeRune (c :: t)).2).length ≤ n := by
        simp only [List.length_drop, List.length_cons] at h ⊢; omega
      simp only [replaceAllIllegalAux]
      rw [ih _ hlen]
      rcases decodeRune_cases (c :: t) with ⟨h1, _⟩ | ⟨s0, t', hs, h0, h1⟩ |
        ⟨s0, t', hs, h0, h1⟩ | ⟨s0, t', hs, h0, h1⟩
      · exact absurd h1 (by simp)
      · obtain ⟨rfl, rfl⟩ := List.cons.inj hs
        rw [h1]
        by_cases hi : illegal c = true
        · simp [hi]
        · simp [hi]
      · obtain ⟨rfl, rfl⟩ := List.cons.inj hs
        rw [h1]
        have hr : illegal RuneError = false := by decide
        have hc := illegal_false_of_ge c h0
        simp [hr, hc]
      · have hr := illegal_false_of_ge _ (decodeRune_ge _ h1)
        rw [hr]
        simp only [Bool.false_eq_true, if_false]
        have hb := decodeRune_bytes_ge _ h1
        have hfl : ((c :: t).take (decodeRune (c :: t)).2).filter (fun b => !illegal b)
            = (c :: t).take (decodeRune (c :: t)).2 := by
          rw [List.filter_eq_self]
          intro b hb'
          simp [illegal_false_of_ge b (hb b hb')]
        conv_rhs => rw [← List.take_append_drop (decodeRune (c :: t)).2 (c :: t)]
        rw [List.filter_append, hfl]

theorem replaceAllIllegal_eq_filter (s : GoString) :
    replaceAllIllegal s = s.filter (fun b => !illegal b) :=
  replaceAllIllegalAux_eq_filter _ s (le_refl _)

theorem replaceAllIllegalAux_fuel (f1 f2 : Nat) (s : GoString) (h1 : s.length ≤ f1)
    (h2 : s.length ≤ f2) : replaceAllIllegalAux f1 s = replaceAllIllegalAux f2 s := by
  rw [replaceAllIllegalAux_eq_filter f1 s h1, replaceAllIllegalAux_eq_filter f2 s h2]

/-- A string without a forbidden byte has no forbidden character. -/
theorem runesAux_clean (fuel : Nat) (s : GoString) (h : ∀ b ∈ s, illegal b = false) :
    ∀ r ∈ runesAux fuel s, illegal r = false := by
  induction fuel generalizing s with
  | zero => simp [runesAux]
  | succ n ih =>
    rcases s with _ | ⟨c, t⟩
    · simp [runesAux]
    · simp only [runesAux]
      intro r hr
      rcases List.mem_cons.mp hr with hr | hr
      · rw [hr]
        rcases decodeRune_cases (c :: t) with ⟨h1, _⟩ | ⟨s0, t', hs, h0, h1⟩ |
          ⟨s0, t', hs, h0, h1⟩ | ⟨s0, t', hs, h0, h1⟩
        · exact absurd h1 (by simp)
        · obtain ⟨rfl, rfl⟩ := List.cons.inj hs
          rw [h1]; exact h c (by simp)
        · rw [h1]; decide
        · exact illegal_false_of_ge _ (decodeRune_ge _ h1)
      · exact ih _ (fun b hb => h b (List.mem_of_mem_drop hb)) r hr

theorem runesAux_fuel (f1 f2 : Nat) (s : GoString) (h1 : s.length ≤ f1)
    (h2 : s.length ≤ f2) : runesAux f1 s = runesAux f2 s := by
  induction f1 generalizing f2 s with
  | zero =>
    have : s = [] := List.length_eq_zero.mp (Nat.le_zero.mp h1)
    subst this
    cases f2 <;> simp [runesAux]
  | succ n ih =>
    cases f2 with
    | zero =>
      have : s = [] := List.length_eq_zero.mp (Nat.le_zero.mp h2)
      subst this
      simp [runesAux]
    | succ m =>
      rcases s with _ | ⟨c, t⟩
      · simp [runesAux]
      · simp only [runesAux]
        have hw := decodeRune_width_pos (c :: t) (by simp)
        congr 1
        apply ih
        · simp only [List.length_drop, List.length_cons] at h1 ⊢; omega
        · simp only [List.length_drop, List.length_cons] at h2 ⊢; omega

/-- `utf8.RuneCountInString` counts the runes of the loop over the string. -/
theorem runeCountAux_eq_length (fuel : Nat) (s : GoString) :
    runeCountAux fuel s = (runesAux fuel s).length := by
  induction fuel generalizing s with
  | zero => rfl
  | succ n ih =>
    rcases s with _ | ⟨c, t⟩
    · rfl
    · simp only [runeCountAux, runesAux, List.length_cons, ih]
      omega

/-! ## The backward decoder -/

theorem backUp_le (s : GoString) (lim : Int) (fuel : Nat) (start : Int) :
    backUp s lim fuel start ≤ start := by
  induction fuel generalizing start with
  | zero => simp [backUp]
  | succ n ih =>
    simp only [backUp]
    split_ifs
    · exact le_refl _
    · have := ih (start - 1); omega
    · exact le_refl _

/-- The loop `backUp` needs no more rounds than the distance from `start` down
to `lim`: a larger bound gives the same result. -/
theorem backUp_fuel (s : GoString) (lim : Int) (f1 f2 : Nat) (start : Int)
    (h1 : start < lim + f1) (h2 : start < lim + f2) :
    backUp s lim f1 start = backUp s lim f2 start := by
  induction f1 generalizing f2 start with
  | zero =>
    have hlt : ¬ start ≥ lim := by omega
    cases f2 with
    | zero => rfl
    | succ m => simp only [backUp, if_neg hlt]
  | succ n ih =>
    cases f2 with
    | zero =>
      have hlt : ¬ start ≥ lim := by omega
      simp only [backUp, if_neg hlt]
    | succ m =>
      simp only [backUp]
      split_ifs
      · rfl
      · apply ih <;> omega
      · rfl

/-- In `DecodeLastRuneInString` the loop starts two bytes before the end and
`lim` is at most four bytes before it, so that `UTFMax` rounds are enough. -/
theorem lastRuneStart_fuel (s : GoString) (fuel : Nat) (h : UTFMax ≤ fuel) :
    backUp s (if (s.length : Int) - UTFMax < 0 then 0 else (s.length : Int) - UTFMax) fuel
        ((s.length : Int) - 1 - 1)
      = backUp s (if (s.length : Int) - UTFMax < 0 then 0 else (s.length : Int) - UTFMax) UTFMax
        ((s.length : Int) - 1 - 1) := by
  apply backUp_fuel
  · split_ifs <;> simp only [UTFMax] at * <;> omega
  · split_ifs <;> simp only [UTFMax] at * <;> omega

theorem lastRuneStart_lt (s : GoString) (hs : s ≠ []) : lastRuneStart s < s.length := by
  have hl : 0 < s.length := List.length_pos.mpr hs
  unfold lastRuneStart
  simp only
  generalize (if (s.length : Int) - UTFMax < 0 then (0 : Int) else (s.length : Int) - UTFMax) = lim
  have h := backUp_le s lim UTFMax ((s.length : Int) - 1 - 1)
  generalize backUp s lim UTFMax ((s.length : Int) - 1 - 1) = b at h ⊢
  split_ifs <;> omega

theorem drop_length_sub_one_getD (s : GoString) (hs : s ≠ []) :
    s.drop (s.length - 1) = [s.getD (s.length - 1) 0] := by
  have hl : 0 < s.length := List.length_pos.mpr hs
  rw [List.drop_eq_getElem_cons (by omega), List.getD_eq_getElem _ _ (by omega)]
  have : s.length - 1 + 1 = s.length := by omega
  rw [this, List.drop_length]

/-- The shapes of a backward decoding of a non-empty string: an ASCII byte, an
invalid encoding of width one, or a rune of two or more bytes that decodes
forward from its first byte. -/
theorem decodeLastRune_cases (s : GoString) (hs : s ≠ []) :
    ((decodeLastRune s).2 = 1 ∧ (decodeLastRune s).1 < RuneSelf ∧
        s.getD (s.length - 1) 0 = (decodeLastRune s).1) ∨
    (decodeLastRune s = (RuneError, 1) ∧ RuneSelf ≤ s.getD (s.length - 1) 0) ∨
    (2 ≤ (decodeLastRune s).2 ∧ (decodeLastRune s).2 ≤ s.length ∧
        decodeRune (s.drop (s.length - (decodeLastRune s).2)) = decodeLastRune s) := by
  have hl : 0 < s.length := List.length_pos.mpr hs
  have hstl := lastRuneStart_lt s hs
  unfold decodeLastRune
  rw [if_neg (Nat.pos_iff_ne_zero.mp hl)]
  by_cases h0 : s.getD (s.length - 1) 0 < RuneSelf
  · left; rw [if_pos h0]; exact ⟨rfl, h0, rfl⟩
  · right
    have h0' : RuneSelf ≤ s.getD (s.length - 1) 0 := Nat.le_of_not_lt h0
    rw [if_neg h0]
    generalize lastRuneStart s = st at hstl ⊢
    by_cases he : st + (decodeRune (s.drop st)).2 ≠ s.length
    · left; rw [if_pos he]; exact ⟨rfl, h0'⟩
    · have he' : st + (decodeRune (s.drop st)).2 = s.length := not_not.mp he
      have hsub : s.length - (decodeRune (s.drop st)).2 = st := by omega
      rw [if_neg he]
      by_cases h2 : 2 ≤ (decodeRune (s.drop st)).2
      · right
        refine ⟨h2, by omega, ?_⟩
        rw [hsub]
      · left
        have hst1 : st = s.length - 1 := by omega
        have hd : decodeRune (s.drop st) = (RuneError, 1) := by
          rw [hst1, drop_length_sub_one_getD s hs]
          exact decodeRune_lone _ [] h0' (by simp)
        exact ⟨hd, h0'⟩

theorem decodeLastRune_width_pos (s : GoString) (hs : s ≠ []) : 1 ≤ (decodeLastRune s).2 := by
  rcases decodeLastRune_cases s hs with h | h | h
  · omega
  · rw [h.1]
  · omega

theorem decodeLastRune_width_le (s : GoString) : (decodeLastRune s).2 ≤ s.length := by
  by_cases hs : s = []
  · subst hs; simp [decodeLastRune]
  · have hl : 0 < s.length := List.length_pos.mpr hs
    rcases decodeLastRune_cases s hs with h | h | h
    · omega
    · rw [h.1]; exact hl
    · omega

/-! ## `strings.TrimLeftFunc` -/

/-- A white-space rune at the front of a prefix of `s` is the rune at the front
of `s`. -/
theorem decodeRune_of_take (s : GoString) (n : Nat)
    (h : isSpace (decodeRune (s.take n)).1 = true) : decodeRune s = decodeRune (s.take n) := by
  rcases decodeRune_cases (s.take n) with ⟨_, h1⟩ | ⟨s0, t, hs, h0, h1⟩ | ⟨s0, t, hs, h0, h1⟩ |
    ⟨s0, t, hs, h0, h1⟩
  · rw [h1] at h; simp [isSpace_RuneError] at h
  · rw [h1]
    have hs' : s = s0 :: (t ++ s.drop n) := by
      conv_lhs => rw [← List.take_append_drop n s, hs]
      rfl
    rw [hs']
    simp [decodeRune, h0]
  · rw [h1] at h; simp [isSpace_RuneError] at h
  · conv_lhs => rw [← List.take_append_drop n s]
    exact decodeRune_append _ _ h1

theorem indexFuncAux_fuel (f1 f2 i : Nat) (rest : GoString) (h1 : rest.length ≤ f1)
    (h2 : rest.length ≤ f2) : indexFuncAux f1 i rest = indexFuncAux f2 i rest := by
  induction f1 generalizing f2 i rest with
  | zero =>
    have : rest = [] := List.length_eq_zero.mp (Nat.le_zero.mp h1)
    subst this
    cases f2 <;> simp [indexFuncAux]
  | succ n ih =>
    cases f2 with
    | zero =>
      have : rest = [] := List.length_eq_zero.mp (Nat.le_zero.mp h2)
      subst this
      simp [indexFuncAux]
    | succ m =>
      rcases rest with _ | ⟨c, t⟩
      · simp [indexFuncAux]
      · simp only [indexFuncAux]
        split_ifs
        · rfl
        · have hw := decodeRune_width_pos (c :: t) (by simp)
          apply ih
          · simp only [List.length_drop, List.length_cons] at h1 ⊢; omega
          · simp only [List.length_drop, List.length_cons] at h2 ⊢; omega

/-- The index found by the forward loop: it lies in `rest`, and the rune that
starts there is not white space. -/
theorem indexFuncAux_some (fuel i : Nat) (rest : GoString) (j : Nat)
    (h : indexFuncAux fuel i rest = some j) :
    ∃ k, j = i + k ∧ k < rest.length ∧ isSpace (decodeRune (rest.drop k)).1 = false := by
  induction fuel generalizing i rest with
  | zero => simp [indexFuncAux] at h
  | succ n ih =>
    rcases rest with _ | ⟨c, t⟩
    · simp [indexFuncAux] at h
    · simp only [indexFuncAux] at h
      split_ifs at h with hsp
      · refine ⟨0, ?_, by simp, by simpa using hsp⟩
        simp at h; omega
      · obtain ⟨k, hk1, hk2, hk3⟩ := ih _ _ h
        have hw := decodeRune_width_le (c :: t)
        refine ⟨(decodeRune (c :: t)).2 + k, by omega, ?_, ?_⟩
        · simp only [List.length_drop] at hk2; omega
        · rw [List.drop_drop] at hk3
          exact hk3

theorem trimLeftFunc_suffix (s : GoString) : trimLeftFunc s <:+ s := by
  unfold trimLeftFunc
  split
  · exact List.nil_suffix
  · exact List.drop_suffix _ _

/-- After `TrimLeftFunc` the string is empty or starts with a rune that is not
white space. -/
theorem trimLeftFunc_head (s : GoString) :
    trimLeftFunc s = [] ∨ isSpace (decodeRune (trimLeftFunc s)).1 = false := by
  unfold trimLeftFunc indexFunc
  split
  · left; rfl
  · rename_i j hj
    obtain ⟨k, hk1, _, hk3⟩ := indexFuncAux_some _ _ _ _ hj
    right
    have : j = k := by omega
    rw [this]; exact hk3

/-- `TrimLeftFunc` leaves a string alone that starts with a rune that is not
white space. -/
theorem trimLeftFunc_id (s : GoString) (h : isSpace (decodeRune s).1 = false) :
    trimLeftFunc s = s := by
  rcases s with _ | ⟨c, t⟩
  · rfl
  · simp [trimLeftFunc, indexFunc, indexFuncAux, h]

/-! ## `strings.TrimRightFunc` -/

theorem drop_eq_getD_cons (s : GoString) (j : Nat) (h : j < s.length) :
    s.drop j = s.getD j 0 :: s.drop (j + 1) := by
  rw [List.drop_eq_getElem_cons h, List.getD_eq_getElem _ _ h]

theorem drop_eq_take_drop_append (s : GoString) (j e : Nat) (hje : j ≤ e) (he : e ≤ s.length) :
    s.drop j = (s.take e).drop j ++ s.drop e := by
  conv_lhs => rw [← List.take_append_drop e s]
  rw [List.drop_append_of_le_length]
  rw [List.length_take]; omega

theorem getD_take_of_lt (s : GoString) (j e : Nat) (hje : j < e) :
    (s.take e).getD j 0 = s.getD j 0 := by
  simp [List.getD_eq_getElem?_getD, List.getElem?_take, hje]

theorem decodeRune_head_of_width (u : GoString) (h : 2 ≤ (decodeRune u).2) :
    ∃ s0 t, u = s0 :: t ∧ 0xC2 ≤ s0 := by
  rcases decodeRune_cases u with ⟨_, h1⟩ | ⟨s0, t, hs, h0, h1⟩ | ⟨s0, t, hs, h0, h1⟩ |
    ⟨s0, t, hs, h0, h1⟩
  · rw [h1] at h; simp at h
  · rw [h1] at h; simp at h
  · rw [h1] at h; simp at h
  · exact ⟨s0, t, hs, h0⟩

/-- The end of `TrimRightFunc`: from the index `j` at which the last rune of
`s[0:e]` starts, the step `i += wid` (or `i++`) leads back to `e`. -/
theorem trimRight_finish (s : GoString) (e : Nat) (he0 : 0 < e) (hel : e ≤ s.length)
    (hb : Boundary s e) :
    (if s.getD (e - (decodeLastRune (s.take e)).2) 0 ≥ RuneSelf then
        s.take (e - (decodeLastRune (s.take e)).2
          + (decodeRune (s.drop (e - (decodeLastRune (s.take e)).2))).2)
      else s.take (e - (decodeLastRune (s.take e)).2 + 1)) = s.take e := by
  have hlen : (s.take e).length = e := by rw [List.length_take]; omega
  have hne : s.take e ≠ [] := by
    intro h; rw [h] at hlen; simp at hlen; omega
  rcases decodeLastRune_cases (s.take e) hne with ⟨h1, h2, h3⟩ | ⟨h1, h2⟩ | ⟨h1, h2, h3⟩
  · rw [hlen, getD_take_of_lt s (e - 1) e (by omega)] at h3
    rw [h1, h3, if_neg (by simpa using h2)]
    congr 1; omega
  · rw [hlen, getD_take_of_lt s (e - 1) e (by omega)] at h2
    rw [h1]
    simp only
    rw [if_pos h2, drop_eq_getD_cons s (e - 1) (by omega)]
    have he1 : e - 1 + 1 = e := by omega
    rw [he1, decodeRune_lone _ _ h2 hb]
    simp only
    rw [he1]
  · rw [hlen] at h2 h3
    generalize hsz : (decodeLastRune (s.take e)).2 = sz at h1 h2 h3 ⊢
    have hd := drop_eq_take_drop_append s (e - sz) e (by omega) hel
    have hw : 2 ≤ (decodeRune ((s.take e).drop (e - sz))).2 := by rw [h3, hsz]; exact h1
    obtain ⟨s0, t, hu, hs0⟩ := decodeRune_head_of_width _ hw
    have hdec : decodeRune (s.drop (e - sz)) = decodeRune ((s.take e).drop (e - sz)) := by
      rw [hd]; exact decodeRune_append _ _ hw
    have hget : s.getD (e - sz) 0 = s0 := by
      have h4 := drop_eq_getD_cons s (e - sz) (by omega)
      rw [hd, hu] at h4
      simp only [List.cons_append, List.cons.injEq] at h4
      exact h4.1.symm
    rw [hget, if_pos (by simp only [RuneSelf]; omega), hdec, h3, hsz]
    congr 1; omega

theorem boundary_length (s : GoString) : Boundary s s.length := by
  intro c hc
  simp at hc

/-- A white-space rune found backward at `i` starts at a boundary. -/
theorem boundary_step (s : GoString) (i : Nat) (hi0 : 0 < i) (hil : i ≤ s.length)
    (hsp : isSpace (decodeLastRune (s.take i)).1 = true) :
    Boundary s (i - (decodeLastRune (s.take i)).2) := by
  have hlen : (s.take i).length = i := by rw [List.length_take]; omega
  have hne : s.take i ≠ [] := by
    intro h; rw [h] at hlen; simp at hlen; omega
  intro c hc
  rcases decodeLastRune_cases (s.take i) hne with ⟨h1, h2, h3⟩ | ⟨h1, h2⟩ | ⟨h1, h2, h3⟩
  · rw [hlen, getD_take_of_lt s (i - 1) i (by omega)] at h3
    rw [h1, drop_eq_getD_cons s (i - 1) (by omega), h3] at hc
    simp only [List.head?_cons, Option.some.injEq] at hc
    left; rw [← hc]; simpa [RuneSelf] using h2
  · rw [h1] at hsp; simp [isSpace_RuneError] at hsp
  · rw [hlen] at h2 h3
    generalize hsz : (decodeLastRune (s.take i)).2 = sz at h1 h2 h3 hc
    have hd := drop_eq_take_drop_append s (i - sz) i (by omega) hil
    have hw : 2 ≤ (decodeRune ((s.take i).drop (i - sz))).2 := by rw [h3, hsz]; exact h1
    obtain ⟨s0, t, hu, hs0⟩ := decodeRune_head_of_width _ hw
    rw [hd, hu] at hc
    simp only [List.cons_append, List.head?_cons, Option.some.injEq] at hc
    right; omega

theorem lastIndexFuncAux_fuel (s : GoString) (f1 f2 i : Nat) (h1 : i ≤ f1) (h2 : i ≤ f2) :
    lastIndexFuncAux s f1 i = lastIndexFuncAux s f2 i := by
  induction f1 generalizing f2 i with
  | zero =>
    have : i = 0 := by omega
    subst this
    cases f2 <;> simp [lastIndexFuncAux]
  | succ n ih =>
    cases f2 with
    | zero =>
      have : i = 0 := by omega
      subst this
      simp [lastIndexFuncAux]
    | succ m =>
      simp only [lastIndexFuncAux]
      by_cases hi : i > 0
      · rw [if_pos hi, if_pos hi]
        by_cases hs : s.take i = []
        · have : (decodeLastRune (s.take i)).1 = RuneError := by rw [hs]; rfl
          rw [this, isSpace_RuneError]; simp
        · have hw := decodeLastRune_width_pos (s.take i) hs
          split_ifs
          · rfl
          · apply ih <;> omega
      · rw [if_neg hi, if_neg hi]

/-- The index found by the backward loop: it is the start of the last rune of
`s[0:e]` for a boundary `e`, and that rune is not white space. -/
theorem lastIndexFuncAux_some (s : GoString) (fuel i j : Nat) (hil : i ≤ s.length)
    (hb : Boundary s i) (h : lastIndexFuncAux s fuel i = some j) :
    ∃ e, 0 < e ∧ e ≤ i ∧ Boundary s e ∧ isSpace (decodeLastRune (s.take e)).1 = false ∧
      j = e - (decodeLastRune (s.take e)).2 := by
  induction fuel generalizing i with
  | zero => simp [lastIndexFuncAux] at h
  | succ n ih =>
    simp only [lastIndexFuncAux] at h
    by_cases hi : i > 0
    · rw [if_pos hi] at h
      by_cases hsp : isSpace (decodeLastRune (s.take i)).1 = false
      · rw [if_pos hsp] at h
        exact ⟨i, hi, le_refl _, hb, hsp, by simpa using h.symm⟩
      · rw [if_neg hsp] at h
        have hsp' : isSpace (decodeLastRune (s.take i)).1 = true := by simpa using hsp
        obtain ⟨e, he0, hei, hbe, hse, hj⟩ :=
          ih (i - (decodeLastRune (s.take i)).2) (by omega) (boundary_step s i hi hil hsp') h
        exact ⟨e, he0, by omega, hbe, hse, hj⟩
    · rw [if_neg hi] at h; simp at h

/-- The backward loop finds a rune when the string starts with a rune that is
not white space. -/
theorem lastIndexFuncAux_ne_none (s : GoString) (hs : isSpace (decodeRune s).1 = false)
    (fuel i : Nat) (hi0 : 0 < i) (hil : i ≤ s.length) (hf : i ≤ fuel) :
    lastIndexFuncAux s fuel i ≠ none := by
  induction fuel generalizing i with
  | zero => omega
  | succ n ih =>
    simp only [lastIndexFuncAux]
    rw [if_pos hi0]
    by_cases hsp : isSpace (decodeLastRune (s.take i)).1 = false
    · rw [if_pos hsp]; simp
    · rw [if_neg hsp]
      have hsp' : isSpace (decodeLastRune (s.take i)).1 = true := by simpa using hsp
      have hlen : (s.take i).length = i := by rw [List.length_take]; omega
      have hne : s.take i ≠ [] := by
        intro h; rw [h] at hlen; simp at hlen; omega
      have hw := decodeLastRune_width_pos (s.take i) hne
      have hwl := decodeLastRune_width_le (s.take i)
      rw [hlen] at hwl
      by_cases hz : i - (decodeLastRune (s.take i)).2 = 0
      · exfalso
        have hsz : (decodeLastRune (s.take i)).2 = i := by omega
        have hfront : decodeRune (s.take i) = decodeLastRune (s.take i) := by
          rcases decodeLastRune_cases (s.take i) hne with ⟨h1, h2, h3⟩ | ⟨h1, h2⟩ | ⟨h1, h2, h3⟩
          · have hi1 : i = 1 := by omega
            subst hi1
            rcases hu : s.take 1 with _ | ⟨x, t⟩
            · exact absurd hu hne
            · rw [hu] at hlen h1 h2 h3
              have ht : t = [] := by simpa using hlen
              subst ht
              have h3' : x = (decodeLastRune [x]).1 := by simpa using h3
              have hx : x < RuneSelf := by rw [h3']; exact h2
              have hd : decodeRune [x] = (x, 1) := by simp [decodeRune, hx]
              rw [hd, Prod.ext_iff]
              exact ⟨h3', h1.symm⟩
          · rw [h1] at hsp'; simp [isSpace_RuneError] at hsp'
          · rw [hlen, hsz] at h3
            simpa using h3
        have h1 : isSpace (decodeRune (s.take i)).1 = true := by rw [hfront]; exact hsp'
        rw [← decodeRune_of_take s i h1, hs] at h1
        exact absurd h1 (by simp)
      · exact ih _ (by omega) (by omega) (by omega)

theorem trimRightFunc_initial (s : GoString) : trimRightFunc s <+: s := by
  unfold trimRightFunc
  split
  · split_ifs <;> exact List.take_prefix _ _
  · exact List.take_prefix _ _

/-- The result of `TrimRightFunc` is a prefix `s[0:e]` that is empty or ends
with a rune that is not white space. -/
theorem trimRightFunc_eq_take (s : GoString) :
    trimRightFunc s = [] ∨ ∃ e, 0 < e ∧ e ≤ s.length ∧ trimRightFunc s = s.take e ∧
      isSpace (decodeLastRune (s.take e)).1 = false := by
  unfold trimRightFunc
  split
  · rename_i j hj
    right
    obtain ⟨e, he0, hel, hbe, hse, hje⟩ :=
      lastIndexFuncAux_some s _ _ j (le_refl _) (boundary_length s) hj
    refine ⟨e, he0, hel, ?_, hse⟩
    rw [hje]
    exact trimRight_finish s e he0 hel hbe
  · left; simp

theorem trimRightFunc_last (s : GoString) :
    trimRightFunc s = [] ∨ isSpace (decodeLastRune (trimRightFunc s)).1 = false := by
  rcases trimRightFunc_eq_take s with h | ⟨e, _, _, h1, h2⟩
  · left; exact h
  · right; rw [h1]; exact h2

/-- `TrimRightFunc` leaves a string alone that ends with a rune that is not
white space. -/
theorem trimRightFunc_id (s : GoString) (hs : s ≠ [])
    (h : isSpace (decodeLastRune s).1 = false) : trimRightFunc s = s := by
  have hl : 0 < s.length := List.length_pos.mpr hs
  have hfin := trimRight_finish s s.length hl (le_refl _) (boundary_length s)
  rw [List.take_length] at hfin
  unfold trimRightFunc lastIndexFunc
  obtain ⟨n, hn⟩ : ∃ n, s.length = n + 1 := ⟨s.length - 1, by omega⟩
  rw [hn] at hfin ⊢
  simp only [lastIndexFuncAux]
  rw [if_pos (by omega)]
  have htake : s.take (n + 1) = s := by rw [← hn]; exact List.take_length _
  rw [htake, if_pos h]
  exact hfin

/-- `TrimRightFunc` keeps the first rune of a string that starts with a rune
that is not white space. -/
theorem trimRightFunc_head (s : GoString) (hs : s ≠ [])
    (h : isSpace (decodeRune s).1 = false) :
    trimRightFunc s ≠ [] ∧ isSpace (decodeRune (trimRightFunc s)).1 = false := by
  have hl : 0 < s.length := List.length_pos.mpr hs
  have hnn := lastIndexFuncAux_ne_none s h s.length s.length hl (le_refl _) (le_refl _)
  rcases trimRightFunc_eq_take s with h0 | ⟨e, he0, hel, h1, h2⟩
  · exfalso
    unfold trimRightFunc lastIndexFunc at h0
    cases hj : lastIndexFuncAux s s.length s.length with
    | none => exact hnn hj
    | some j =>
      obtain ⟨e, he0, hel, hbe, hse, hje⟩ :=
        lastIndexFuncAux_some s _ _ j (le_refl _) (boundary_length s) hj
      rw [hj] at h0
      simp only at h0
      rw [hje, trimRight_finish s e he0 hel hbe] at h0
      have : (s.take e).length = e := by rw [List.length_take]; omega
      rw [h0] at this; simp at this; omega
  · rw [h1]
    constructor
    · intro h0
      have : (s.take e).length = e := by rw [List.length_take]; omega
      rw [h0] at this; simp at this; omega
    · by_contra hc
      have hc' : isSpace (decodeRune (s.take e)).1 = true := by simpa using hc
      rw [← decodeRune_of_take s e hc', h] at hc'
      exact absurd hc' (by simp)

/-! ## `strings.TrimSpace` -/

theorem asciiSpace_eq_isSpace (c : Nat) (h : c < RuneSelf) : asciiSpace c = isSpace c := by
  have key : ∀ c < 128, asciiSpace c = isSpace c := by decide
  exact key c h

theorem decodeRune_ascii (c : Nat) (t : GoString) (h : c < RuneSelf) :
    decodeRune (c :: t) = (c, 1) := by
  simp [decodeRune, h]

theorem decodeLastRune_ascii (u : GoString) (hu : u ≠ [])
    (h : u.getD (u.length - 1) 0 < RuneSelf) :
    decodeLastRune u = (u.getD (u.length - 1) 0, 1) := by
  have hl : 0 < u.length := List.length_pos.mpr hu
  unfold decodeLastRune
  rw [if_neg (by omega), if_pos h]

theorem trimRightFunc_nil : trimRightFunc [] = [] := by
  simp [trimRightFunc, lastIndexFunc, lastIndexFuncAux]

theorem trimFunc_within (s : GoString) : trimFunc s <:+: s :=
  List.IsInfix.trans (trimRightFunc_initial _).isInfix (trimLeftFunc_suffix s).isInfix

theorem trimFunc_trimmed (s : GoString) : Trimmed (trimFunc s) := by
  unfold trimFunc
  rcases trimLeftFunc_head s with h | h
  · rw [h, trimRightFunc_nil]; left; rfl
  · by_cases hne : trimLeftFunc s = []
    · rw [hne, trimRightFunc_nil]; left; rfl
    · obtain ⟨h1, h2⟩ := trimRightFunc_head _ hne h
      rcases trimRightFunc_last (trimLeftFunc s) with h3 | h3
      · exact absurd h3 h1
      · right; exact ⟨h2, h3⟩

theorem trimFunc_id (t : GoString) (h : Trimmed t) : trimFunc t = t := by
  rcases h with h | ⟨h1, h2⟩
  · subst h; unfold trimFunc; rw [show trimLeftFunc [] = [] from rfl, trimRightFunc_nil]
  · by_cases hne : t = []
    · subst hne; unfold trimFunc; rw [show trimLeftFunc [] = [] from rfl, trimRightFunc_nil]
    · unfold trimFunc
      rw [trimLeftFunc_id t h1, trimRightFunc_id t hne h2]

theorem trimSpaceStop_within (t : GoString) (stop : Nat) : trimSpaceStop t stop <:+: t := by
  induction stop with
  | zero => simp [trimSpaceStop]
  | succ n ih =>
    simp only [trimSpaceStop]
    split_ifs
    · exact List.IsInfix.trans (trimRightFunc_initial _).isInfix ( List.take_prefix _ _).isInfix
    · exact ( List.take_prefix _ _).isInfix
    · exact ih

theorem trimSpaceStop_trimmed (c : Nat) (rest : GoString) (hc : c < RuneSelf)
    (hsp : asciiSpace c = false) (stop : Nat) (hstop : stop ≤ (c :: rest).length) :
    Trimmed (trimSpaceStop (c :: rest) stop) := by
  have hic : isSpace c = false := by rw [← asciiSpace_eq_isSpace c hc]; exact hsp
  induction stop with
  | zero => left; simp [trimSpaceStop]
  | succ n ih =>
    simp only [trimSpaceStop]
    have htake : (c :: rest).take (n + 1) = c :: rest.take n := rfl
    have hhead : isSpace (decodeRune ((c :: rest).take (n + 1))).1 = false := by
      rw [htake, decodeRune_ascii c _ hc]; exact hic
    have hne : (c :: rest).take (n + 1) ≠ [] := by rw [htake]; simp
    have hlen : ((c :: rest).take (n + 1)).length = n + 1 := by
      rw [List.length_take]; omega
    split_ifs with h1 h2
    · obtain ⟨h3, h4⟩ := trimRightFunc_head _ hne hhead
      rcases trimRightFunc_last ((c :: rest).take (n + 1)) with h5 | h5
      · exact absurd h5 h3
      · right; exact ⟨h4, h5⟩
    · right
      refine ⟨hhead, ?_⟩
      have hlast : ((c :: rest).take (n + 1)).getD (((c :: rest).take (n + 1)).length - 1) 0
          = (c :: rest).getD n 0 := by
        rw [hlen]; exact getD_take_of_lt _ n (n + 1) (by omega)
      have hlt : (c :: rest).getD n 0 < RuneSelf := Nat.lt_of_not_le h1
      rw [decodeLastRune_ascii _ hne (by rw [hlast]; exact hlt), hlast]
      simp only
      rw [← asciiSpace_eq_isSpace _ hlt]; exact h2
    · exact ih (by omega)

theorem TrimSpace_within (s : GoString) : TrimSpace s <:+: s := by
  induction s with
  | nil => simp [TrimSpace]
  | cons c rest ih =>
    simp only [TrimSpace]
    split_ifs
    · exact trimFunc_within _
    · exact trimSpaceStop_within _ _
    · exact List.IsInfix.trans ih (List.suffix_cons c rest).isInfix

/-- The result of `strings.TrimSpace` has no white space at either end. -/
theorem TrimSpace_trimmed (s : GoString) : Trimmed (TrimSpace s) := by
  induction s with
  | nil => left; rfl
  | cons c rest ih =>
    simp only [TrimSpace]
    split_ifs with h1 h2
    · exact trimFunc_trimmed _
    · exact trimSpaceStop_trimmed c rest (Nat.lt_of_not_le h1) h2 _ (le_refl _)
    · exact ih

/-- `strings.TrimSpace` returns a string with no white space at either end
unchanged. -/
theorem TrimSpace_id (t : GoString) (h : Trimmed t) : TrimSpace t = t := by
  rcases t with _ | ⟨c, rest⟩
  · rfl
  · rcases h with h | ⟨h1, h2⟩
    · exact absurd h (by simp)
    · simp only [TrimSpace]
      by_cases hc : c ≥ RuneSelf
      · rw [if_pos hc]; exact trimFunc_id _ (Or.inr ⟨h1, h2⟩)
      · rw [if_neg hc]
        have hc' : c < RuneSelf := Nat.lt_of_not_le hc
        rw [decodeRune_ascii c rest hc'] at h1
        have hac : asciiSpace c = false := by rw [asciiSpace_eq_isSpace c hc']; exact h1
        rw [if_pos hac]
        simp only [List.length_cons, trimSpaceStop]
        have htake : (c :: rest).take (rest.length + 1) = c :: rest :=
          List.take_length (c :: rest)
        rw [htake]
        by_cases hd : (c :: rest).getD rest.length 0 ≥ RuneSelf
        · rw [if_pos hd]; exact trimRightFunc_id _ (by simp) h2
        · rw [if_neg hd]
          have hd' : (c :: rest).getD rest.length 0 < RuneSelf := Nat.lt_of_not_le hd
          have hl := decodeLastRune_ascii (c :: rest) (by simp) (by simpa using hd')
          rw [hl] at h2
          simp only [List.length_cons, Nat.add_sub_cancel] at h2
          rw [if_pos (by rw [asciiSpace_eq_isSpace _ hd']; exact h2)]

/-- `strings.TrimSpace` is idempotent on every byte string. -/
theorem TrimSpace_idem (s : GoString) : TrimSpace (TrimSpace s) = TrimSpace s :=
  TrimSpace_id _ (TrimSpace_trimmed s)

/-! ## `sanitize` -/

theorem runeCountAux_le (fuel : Nat) (s : GoString) : runeCountAux fuel s ≤ s.length := by
  induction fuel generalizing s with
  | zero => simp [runeCountAux]
  | succ n ih =>
    rcases s with _ | ⟨c, t⟩
    · simp [runeCountAux]
    · simp only [runeCountAux]
      have hw := decodeRune_width_pos (c :: t) (by simp)
      have hl := decodeRune_width_le (c :: t)
      have := ih ((c :: t).drop (decodeRune (c :: t)).2)
      rw [List.length_drop] at this
      omega

theorem runeCountAux_fuel (f1 f2 : Nat) (s : GoString) (h1 : s.length ≤ f1)
    (h2 : s.length ≤ f2) : runeCountAux f1 s = runeCountAux f2 s := by
  induction f1 generalizing f2 s with
  | zero =>
    have : s = [] := List.length_eq_zero.mp (Nat.le_zero.mp h1)
    subst this
    cases f2 <;> simp [runeCountAux]
  | succ n ih =>
    cases f2 with
    | zero =>
      have : s = [] := List.length_eq_zero.mp (Nat.le_zero.mp h2)
      subst this
      simp [runeCountAux]
    | succ m =>
      rcases s with _ | ⟨c, t⟩
      · simp [runeCountAux]
      · simp only [runeCountAux]
        have hw := decodeRune_width_pos (c :: t) (by simp)
        congr 1
        apply ih
        · simp only [List.length_drop, List.length_cons] at h1 ⊢; omega
        · simp only [List.length_drop, List.length_cons] at h2 ⊢; omega

/-- A string has at most as many runes as bytes. -/
theorem runeCount_le_length (s : GoString) : runeCount s ≤ s.length :=
  runeCountAux_le _ s

theorem replaceAllIllegal_clean (s : GoString) : ∀ b ∈ replaceAllIllegal s, illegal b = false := by
  intro b hb
  rw [replaceAllIllegal_eq_filter] at hb
  have := (List.mem_filter.mp hb).2
  simpa using this

theorem replaceAllIllegal_id (s : GoString) (h : ∀ b ∈ s, illegal b = false) :
    replaceAllIllegal s = s := by
  rw [replaceAllIllegal_eq_filter, List.filter_eq_self]
  intro b hb
  simp [h b hb]

/-- The truncation step of `sanitize` keeps the first 50 bytes. -/
theorem truncate_eq_take (s : GoString) : (if s.length > 50 then s.take 50 else s) = s.take 50 := by
  split_ifs with h
  · rfl
  · exact (List.take_of_length_le (by omega)).symm

theorem sanitize_eq (s : GoString) : sanitize s = TrimSpace ((replaceAllIllegal s).take 50) := by
  unfold sanitize
  simp only [truncate_eq_take]

theorem sanitize_within (s : GoString) : sanitize s <:+: (replaceAllIllegal s).take 50 := by
  rw [sanitize_eq]; exact TrimSpace_within _

theorem sanitize_length_le (s : GoString) : (sanitize s).length ≤ 50 := by
  have h1 := (sanitize_within s).length_le
  have h2 : ((replaceAllIllegal s).take 50).length ≤ 50 := by
    rw [List.length_take]; omega
  omega

theorem sanitize_clean (s : GoString) : ∀ b ∈ sanitize s, illegal b = false := by
  intro b hb
  have h1 : b ∈ (replaceAllIllegal s).take 50 := (sanitize_within s).subset hb
  exact replaceAllIllegal_clean s b (List.mem_of_mem_take h1)

theorem sanitize_trimmed (s : GoString) : Trimmed (sanitize s) := by
  rw [sanitize_eq]; exact TrimSpace_trimmed _

theorem takeRunes_ascii (n : Nat) (s : GoString) (h : ∀ b ∈ s, b < RuneSelf) :
    takeRunes n s = s.take n := by
  induction n generalizing s with
  | zero => simp [takeRunes]
  | succ n ih =>
    rcases s with _ | ⟨c, t⟩
    · simp [takeRunes]
    · have hc : c < RuneSelf := h c (by simp)
      simp only [takeRunes, decodeRune_ascii c t hc]
      show [c] ++ takeRunes n t = c :: t.take n
      rw [ih t (fun b hb => h b (by simp [hb]))]
      rfl

/-! ## The file name of a message -/

theorem fmtIntegerAux_buf (fuel u : Nat) (buf : GoString) :
    fmtIntegerAux fuel u buf = fmtIntegerAux fuel u [] ++ buf := by
  induction fuel generalizing u buf with
  | zero => simp [fmtIntegerAux]
  | succ n ih =>
    simp only [fmtIntegerAux]
    split_ifs
    · rw [ih (u / 10) (_ :: buf), ih (u / 10) [_]]
      simp
    · simp

theorem fmtIntegerAux_fuel (f1 f2 u : Nat) (buf : GoString) (h1 : u ≤ f1) (h2 : u ≤ f2) :
    fmtIntegerAux f1 u buf = fmtIntegerAux f2 u buf := by
  induction f1 generalizing f2 u buf with
  | zero =>
    have hu : u = 0 := by omega
    subst hu
    cases f2 <;> simp [fmtIntegerAux]
  | succ n ih =>
    cases f2 with
    | zero =>
      have hu : u = 0 := by omega
      subst hu
      simp [fmtIntegerAux]
    | succ m =>
      simp only [fmtIntegerAux]
      split_ifs
      · apply ih <;> omega
      · rfl

theorem decimal_of_lt (n : Nat) (h : n < 10) : decimal n = [0x30 + n] := by
  unfold decimal
  cases n with
  | zero => rfl
  | succ k => simp only [fmtIntegerAux, if_neg (show ¬ k + 1 ≥ 10 by omega)]

theorem decimal_of_ge (n : Nat) (h : 10 ≤ n) :
    decimal n = decimal (n / 10) ++ [0x30 + n % 10] := by
  unfold decimal
  obtain ⟨k, rfl⟩ : ∃ k, n = k + 1 := ⟨n - 1, by omega⟩
  simp only [fmtIntegerAux, if_pos h]
  rw [fmtIntegerAux_buf, fmtIntegerAux_fuel k ((k + 1) / 10) ((k + 1) / 10) [] (by omega)
    (le_refl _)]
  congr 2
  omega

theorem decimal_digits (n : Nat) : ∀ d ∈ decimal n, 0x30 ≤ d ∧ d ≤ 0x39 := by
  induction n using Nat.strong_induction_on with
  | _ n ih =>
    by_cases h : n < 10
    · rw [decimal_of_lt n h]
      intro d hd
      simp only [List.mem_singleton] at hd
      omega
    · rw [decimal_of_ge n (by omega)]
      intro d hd
      rcases List.mem_append.mp hd with hd | hd
      · exact ih (n / 10) (by omega) d hd
      · simp only [List.mem_singleton] at hd
        omega

theorem decimal_value (n : Nat) :
    (decimal n).foldl (fun value d => 10 * value + (d - 0x30)) 0 = n := by
  induction n using Nat.strong_induction_on with
  | _ n ih =>
    by_cases h : n < 10
    · rw [decimal_of_lt n h]
      simp
    · rw [decimal_of_ge n (by omega), List.foldl_append, ih (n / 10) (by omega)]
      simp only [List.foldl_cons, List.foldl_nil]
      omega

theorem decimal_head (n : Nat) (h : 1 ≤ n) : ∃ d t, decimal n = d :: t ∧ 0x31 ≤ d := by
  induction n using Nat.strong_induction_on with
  | _ n ih =>
    by_cases h10 : n < 10
    · rw [decimal_of_lt n h10]
      exact ⟨_, [], rfl, by omega⟩
    · rw [decimal_of_ge n (by omega)]
      obtain ⟨d, t, hd, hge⟩ := ih (n / 10) (by omega) (by omega)
      rw [hd]
      exact ⟨d, t ++ [0x30 + n % 10], rfl, hge⟩

/-- The digits written for `%d` are the decimal numeral of the number. -/
theorem readDecimal_decimal (n : Nat) : readDecimal (decimal n) = some n := by
  have hne : decimal n ≠ [] := by
    by_cases h : n < 10
    · rw [decimal_of_lt n h]; simp
    · rw [decimal_of_ge n (by omega)]; simp
  have hall : (decimal n).all (fun d => decide (0x30 ≤ d ∧ d ≤ 0x39)) = true := by
    rw [List.all_eq_true]
    intro d hd
    simpa using decimal_digits n d hd
  have hhead : ¬ ((decimal n).head? = some 0x30 ∧ 1 < (decimal n).length) := by
    rintro ⟨h0, hlen⟩
    by_cases hn : n = 0
    · subst hn
      rw [decimal_of_lt 0 (by omega)] at hlen
      simp at hlen
    · obtain ⟨d, t, hd, hge⟩ := decimal_head n (by omega)
      rw [hd] at h0
      simp only [List.head?_cons, Option.some.injEq] at h0
      omega
  unfold readDecimal
  rw [if_neg hne, hall, if_neg (by simp), if_neg hhead, decimal_value]

/-- A numeral is read as one number only, and it is the numeral that `%d` writes
for that number. -/
theorem decimal_of_readDecimal (s : GoString) (n : Nat) (h : readDecimal s = some n) :
    s = decimal n := by
  induction s using List.reverseRecOn generalizing n with
  | nil => simp [readDecimal] at h
  | append_singleton init d ih =>
    unfold readDecimal at h
    rw [if_neg (by simp)] at h
    by_cases hall : (init ++ [d]).all (fun d => decide (0x30 ≤ d ∧ d ≤ 0x39)) = false
    · rw [if_pos hall] at h; simp at h
    rw [if_neg hall] at h
    have hall' : (init ++ [d]).all (fun d => decide (0x30 ≤ d ∧ d ≤ 0x39)) = true := by
      simpa using hall
    rw [List.all_append] at hall'
    simp only [Bool.and_eq_true, List.all_cons, List.all_nil, Bool.and_true,
      decide_eq_true_eq] at hall'
    obtain ⟨hinit, hd⟩ := hall'
    by_cases hz : (init ++ [d]).head? = some 0x30 ∧ 1 < (init ++ [d]).length
    · rw [if_pos hz] at h; simp at h
    rw [if_neg hz] at h
    simp only [Option.some.injEq, List.foldl_append, List.foldl_cons, List.foldl_nil] at h
    rcases init with _ | ⟨c, t⟩
    · simp only [List.foldl_nil] at h
      rw [decimal_of_lt n (by omega)]
      simp only [List.nil_append, List.cons.injEq, and_true]
      omega
    · have hc : c ≠ 0x30 := by
        intro hc
        apply hz
        simp [hc]
      have hread : readDecimal (c :: t)
          = some ((c :: t).foldl (fun value d => 10 * value + (d - 0x30)) 0) := by
        unfold readDecimal
        rw [if_neg (by simp), hinit, if_neg (by simp), if_neg (by simp [hc])]
      have hinit' := ih _ hread
      generalize hv : (c :: t).foldl (fun value d => 10 * value + (d - 0x30)) 0 = v at h hinit'
      have hv1 : 1 ≤ v := by
        by_contra hv0
        have : v = 0 := by omega
        subst this
        rw [decimal_of_lt 0 (by omega)] at hinit'
        simp only [List.cons.injEq] at hinit'
        omega
      rw [decimal_of_ge n (by omega)]
      have h1 : n / 10 = v := by omega
      have h2 : 0x30 + n % 10 = d := by omega
      rw [h1, h2, ← hinit']

theorem appendInt_two (x : Nat) (h : x < 100) : appendInt x 2 = [digitAt x 10, digitAt x 1] := by
  unfold appendInt digitAt
  by_cases h1 : x < 10
  · rw [decimal_of_lt x h1]
    simp only [List.length_singleton, List.replicate, List.cons_append, List.nil_append,
      List.cons.injEq, and_true]
    omega
  · rw [decimal_of_ge x (by omega), decimal_of_lt (x / 10) (by omega)]
    simp only [List.length_append, List.length_singleton, List.replicate, List.cons_append,
      List.nil_append, List.cons.injEq, and_true, Nat.div_one]
    omega

theorem appendInt_four (x : Nat) (h : x < 10000) :
    appendInt x 4 = [digitAt x 1000, digitAt x 100, digitAt x 10, digitAt x 1] := by
  unfold appendInt digitAt
  by_cases h1 : x < 10
  · rw [decimal_of_lt x h1]
    simp only [List.length_singleton, List.replicate, List.cons_append, List.nil_append,
      List.cons.injEq, and_true]
    omega
  by_cases h2 : x < 100
  · rw [decimal_of_ge x (by omega), decimal_of_lt (x / 10) (by omega)]
    simp only [List.length_append, List.length_singleton, List.replicate, List.cons_append,
      List.nil_append, List.cons.injEq, and_true, Nat.div_one]
    omega
  by_cases h3 : x < 1000
  · rw [decimal_of_ge x (by omega), decimal_of_ge (x / 10) (by omega),
      decimal_of_lt (x / 10 / 10) (by omega)]
    simp only [List.length_append, List.length_singleton, List.replicate, List.cons_append,
      List.nil_append, List.cons.injEq, and_true, Nat.div_one]
    omega
  · rw [decimal_of_ge x (by omega), decimal_of_ge (x / 10) (by omega),
      decimal_of_ge (x / 10 / 10) (by omega), decimal_of_lt (x / 10 / 10 / 10) (by omega)]
    simp only [List.length_append, List.length_singleton, List.replicate, List.cons_append,
      List.nil_append, List.cons.injEq, and_true, Nat.div_one]
    omega

/-- For a calendar date `Format` prints the fourteen digits `YYYYMMDDhhmmss`. -/
theorem Format_eq_specCompact (t : Time) (h : t.inCalendar) : t.Format = specCompact t := by
  obtain ⟨hy, _, hm, _, hd, hh, hmi, hs⟩ := h
  unfold Time.Format specCompact
  rw [appendInt_four t.Year (by omega), appendInt_two t.Month (by omega),
    appendInt_two t.Day (by omega), appendInt_two t.Hour (by omega),
    appendInt_two t.Minute (by omega), appendInt_two t.Second (by omega)]
  rfl

theorem illegal_false_of_digit (d : Nat) (h : 0x30 ≤ d ∧ d ≤ 0x39) : illegal d = false := by
  cases hi : illegal d with
  | false => rfl
  | true =>
    unfold illegal at hi
    simp only [Bool.or_eq_true, beq_iff_eq] at hi
    omega

theorem isSpace_false_of_digit (d : Nat) (h : 0x30 ≤ d ∧ d ≤ 0x39) : isSpace d = false := by
  rw [← asciiSpace_eq_isSpace d (by simp only [RuneSelf]; omega)]
  cases hi : asciiSpace d with
  | false => rfl
  | true =>
    unfold asciiSpace at hi
    simp only [Bool.or_eq_true, beq_iff_eq] at hi
    omega

/-- `sanitize` leaves a string of at most 50 digits unchanged. -/
theorem sanitize_of_digits (s : GoString) (hd : ∀ d ∈ s, 0x30 ≤ d ∧ d ≤ 0x39)
    (hl : s.length ≤ 50) : sanitize s = s := by
  rw [sanitize_eq, replaceAllIllegal_id s (fun d h => illegal_false_of_digit d (hd d h)),
    List.take_of_length_le hl]
  apply TrimSpace_id
  rcases s with _ | ⟨c, t⟩
  · left; rfl
  · right
    have hc := hd c (by simp)
    constructor
    · rw [decodeRune_ascii c t (by simp only [RuneSelf]; omega)]
      exact isSpace_false_of_digit c hc
    · have hlast : (c :: t).getD ((c :: t).length - 1) 0 ∈ c :: t := by
        rw [List.getD_eq_getElem _ _ (by simp)]
        exact List.getElem_mem _
      have hdl := hd _ hlast
      rw [decodeLastRune_ascii (c :: t) (by simp) (by simp only [RuneSelf]; omega)]
      exact isSpace_false_of_digit _ hdl

/-- The timestamp component of a calendar date is the fourteen digits
themselves: `sanitize` changes nothing in them. -/
theorem sanitize_specCompact (t : Time) : sanitize (specCompact t) = specCompact t := by
  apply sanitize_of_digits
  · intro d hd
    simp only [specCompact, digitAt, List.mem_cons, List.mem_singleton, List.not_mem_nil,
      or_false] at hd
    omega
  · simp [specCompact]

/-- Claim C7: for every message with a calendar date, the file name is
`email-`, the decimal numeral of the sequence number (the one string that is
read as this number) and, each after an underscore, the timestamp, sender and
subject components of the spec, followed by `.eml`. -/
theorem fileName_pattern (msg : Message) (h : msg.inCalendar) :
    ∃ number, (∀ s, readDecimal s = some msg.SeqNum ↔ s = number) ∧
      fileName msg = ascii "email-" ++ number ++ ascii "_" ++ specTimestamp msg
        ++ ascii "_" ++ specFrom msg ++ ascii "_" ++ specSubject msg ++ ascii ".eml" := by
  refine ⟨decimal msg.SeqNum, fun s => ⟨decimal_of_readDecimal s _, fun hs => ?_⟩, ?_⟩
  · rw [hs]; exact readDecimal_decimal _
  have h1 : sanitize (ascii "no-subject") = ascii "no-subject" := by decide
  have h2 : sanitize (ascii "unknown") = ascii "unknown" := by decide
  have h3 : sanitize (ascii "unknown-date") = ascii "unknown-date" := by decide
  unfold fileName specTimestamp specFrom specSubject
  rcases msg with ⟨seq, _ | ⟨date, subject, sender⟩, body⟩
  · simp only [h1, h2, h3]
  · simp only
    have hcal : date.inCalendar := h ⟨date, subject, sender⟩ rfl
    clear h
    have hs : sanitize (if subject ≠ [] then subject else ascii "no-subject")
        = if subject = [] then ascii "no-subject" else sanitize subject := by
      by_cases h : subject = []
      · simp [h, h1]
      · simp [h]
    have ht : sanitize (if (!date.isZero) = true then date.Format else ascii "unknown-date")
        = if date.isZero = true then ascii "unknown-date" else sanitize (specCompact date) := by
      rw [Format_eq_specCompact date hcal]
      cases date.isZero <;> simp [h3]
    have hf : sanitize (match sender with
        | fromAddr :: _ => fromAddr.MailboxName ++ ascii "@" ++ fromAddr.HostName
        | [] => ascii "unknown")
        = match sender with
          | [] => ascii "unknown"
          | a :: _ => sanitize (a.MailboxName ++ ascii "@" ++ a.HostName) := by
      cases sender <;> simp [h2]
    rw [hs, ht, hf]

theorem fileName_pattern_witness :
    (scenarioMessage 3 "Re: Hi" scenarioDate).inCalendar ∧
    fileName (scenarioMessage 3 "Re: Hi" scenarioDate)
      = ascii "email-3_20250101120000_alice@example.com_Re Hi.eml" ∧
    ∃ number, (∀ s, readDecimal s = some 3 ↔ s = number) ∧
      fileName (scenarioMessage 3 "Re: Hi" scenarioDate)
        = ascii "email-" ++ number ++ ascii "_"
          ++ specTimestamp (scenarioMessage 3 "Re: Hi" scenarioDate) ++ ascii "_"
          ++ specFrom (scenarioMessage 3 "Re: Hi" scenarioDate) ++ ascii "_"
          ++ specSubject (scenarioMessage 3 "Re: Hi" scenarioDate) ++ ascii ".eml" :=
  have hcal : (scenarioMessage 3 "Re: Hi" scenarioDate).inCalendar := by
    intro envelope he
    simp only [scenarioMessage, Option.some.injEq] at he
    subst he
    decide
  ⟨hcal, by decide, fileName_pattern (scenarioMessage 3 "Re: Hi" scenarioDate) hcal⟩

theorem fileName_scenario (seq : Nat) (subject : String) (date : Time)
    (h : ascii subject ≠ []) :
    fileName (scenarioMessage seq subject date)
      = ascii "email-" ++ decimal seq ++ ascii "_" ++ sanitize date.Format ++ ascii "_"
        ++ sanitize (ascii "alice" ++ ascii "@" ++ ascii "example.com") ++ ascii "_"
        ++ sanitize (ascii subject) ++ ascii ".eml" := by
  simp only [fileName, scenarioMessage, ne_eq, h, not_false_eq_true, if_true, Bool.not_false]
  rfl

/-- Claim C8, amended: in the end-to-end scenario the compressed files of the
messages 1 and 3 end in `_Hi.eml.gz` and `_Re Hi.eml.gz`: the colon of
`Re: Hi` is stripped, not replaced. -/
theorem scenario_names (date : Time) :
    gzName (scenarioMessage 1 "Hi" date)
      = ascii "email-1_" ++ sanitize date.Format ++ ascii "_alice@example.com_Hi.eml.gz" ∧
    gzName (scenarioMessage 3 "Re: Hi" date)
      = ascii "email-3_" ++ sanitize date.Format ++ ascii "_alice@example.com_Re Hi.eml.gz" := by
  have h1 : sanitize (ascii "Hi") = ascii "Hi" := by decide
  have h2 : sanitize (ascii "Re: Hi") = ascii "Re Hi" := by decide
  have h3 : sanitize (ascii "alice" ++ ascii "@" ++ ascii "example.com")
      = ascii "alice@example.com" := by decide
  have p1 : ascii "email-1_" = ascii "email-" ++ decimal 1 ++ ascii "_" := by decide
  have p3 : ascii "email-3_" = ascii "email-" ++ decimal 3 ++ ascii "_" := by decide
  have q1 : ascii "_alice@example.com_Hi.eml.gz"
      = ascii "_" ++ ascii "alice@example.com" ++ ascii "_" ++ ascii "Hi" ++ ascii ".eml"
        ++ ascii ".gz" := by decide
  have q3 : ascii "_alice@example.com_Re Hi.eml.gz"
      = ascii "_" ++ ascii "alice@example.com" ++ ascii "_" ++ ascii "Re Hi" ++ ascii ".eml"
        ++ ascii ".gz" := by decide
  constructor
  · rw [gzName, fileName_scenario 1 "Hi" date (by decide), h1, h3, p1, q1]
    simp only [List.append_assoc]
  · rw [gzName, fileName_scenario 3 "Re: Hi" date (by decide), h2, h3, p3, q3]
    simp only [List.append_assoc]

/-- Claim C8 fails as stated: the subject component of `Re: Hi` is `Re Hi`,
not `Re_ Hi`, and the compressed file of message 3 is not named with the
underscore. -/
theorem scenario_not_underscore :
    sanitize (ascii "Re: Hi") = ascii "Re Hi" ∧ sanitize (ascii "Re: Hi") ≠ ascii "Re_ Hi" ∧
    gzName (scenarioMessage 3 "Re: Hi" scenarioDate)
      ≠ ascii "email-3_20250101120000_alice@example.com_Re_ Hi.eml.gz" := by
  decide

/-! ## The archiving loop -/

theorem handleMessage_toDelete (msg : Message) (o : Outcome) (toDelete : List Nat) :
    (handleMessage msg o toDelete).2
      = if written msg o = true then toDelete ++ [msg.SeqNum] else toDelete := by
  rcases o with ⟨create, copy, compress, remove⟩
  rcases msg with ⟨seq, envelope, _ | body⟩ <;> cases create <;> cases copy <;>
    simp [handleMessage, written]

theorem handleMessage_events (msg : Message) (o : Outcome) (toDelete : List Nat) :
    ∀ e ∈ (handleMessage msg o toDelete).1, e.isArchiving = true := by
  rcases o with ⟨create, copy, compress, remove⟩
  rcases msg with ⟨seq, envelope, _ | body⟩ <;> cases create <;> cases copy <;>
    cases compress <;> cases remove <;> simp [handleMessage, Event.isArchiving]

theorem archiveLoop_trace (ms : List (Option (Message × Outcome))) (trace : List Event)
    (toDelete : List Nat) (e : Event) (h : e ∈ (archiveLoop ms trace toDelete).trace) :
    e ∈ trace ∨ e.isArchiving = true := by
  induction ms generalizing trace toDelete with
  | nil => left; simpa [archiveLoop] using h
  | cons m rest ih =>
    rcases m with _ | ⟨msg, o⟩
    · left; simpa [archiveLoop] using h
    · simp only [archiveLoop] at h
      rcases ih _ _ h with h1 | h1
      · rcases List.mem_append.mp h1 with h2 | h2
        · left; exact h2
        · right; exact handleMessage_events msg o toDelete e h2
      · right; exact h1

theorem archiveLoop_map_some (ms : List (Message × Outcome)) (trace : List Event)
    (toDelete : List Nat) :
    (archiveLoop (ms.map some) trace toDelete).panicked = false ∧
    (archiveLoop (ms.map some) trace toDelete).toDelete
      = toDelete ++ (ms.filter (fun p => written p.1 p.2)).map (fun p => p.1.SeqNum) := by
  induction ms generalizing trace toDelete with
  | nil => simp [archiveLoop]
  | cons p rest ih =>
    obtain ⟨msg, o⟩ := p
    simp only [List.map_cons, archiveLoop]
    obtain ⟨h1, h2⟩ := ih (trace ++ (handleMessage msg o toDelete).1) (handleMessage msg o toDelete).2
    refine ⟨h1, ?_⟩
    rw [h2, handleMessage_toDelete]
    by_cases hw : written msg o = true
    · simp [hw, List.filter_cons]
    · simp [hw, List.filter_cons]

/-- The loop over a stream without nil handles ends without a panic, and its
deletion set holds exactly the sequence numbers of the messages whose file was
created and whose body was copied. -/
theorem archiveLoop_toDelete (ms : List (Message × Outcome)) :
    (archiveLoop (ms.map some) [] []).panicked = false ∧
    (archiveLoop (ms.map some) [] []).toDelete
      = (ms.filter (fun p => written p.1 p.2)).map (fun p => p.1.SeqNum) ∧
    ∀ n, n ∈ (archiveLoop (ms.map some) [] []).toDelete
      ↔ ∃ p ∈ ms, written p.1 p.2 = true ∧ p.1.SeqNum = n := by
  obtain ⟨h1, h2⟩ := archiveLoop_map_some ms [] []
  simp only [List.nil_append] at h2
  refine ⟨h1, h2, ?_⟩
  intro n
  rw [h2]
  simp only [List.mem_map, List.mem_filter]
  constructor
  · rintro ⟨p, ⟨hp, hw⟩, hn⟩; exact ⟨p, hp, hw, hn⟩
  · rintro ⟨p, hp, hw, hn⟩; exact ⟨p, ⟨hp, hw⟩, hn⟩

/-- Claim C1 fails as stated: a message whose compression fails is added to
the deletion set although its outcome is not *archived*. -/
theorem deletion_set_not_archived :
    archived (scenarioMessage 1 "Hi" scenarioDate)
      { create := true, copy := true, compress := false, remove := true } = false ∧
    (archiveLoop [some (scenarioMessage 1 "Hi" scenarioDate,
      { create := true, copy := true, compress := false, remove := true })] [] []).toDelete
      = [1] := by
  decide

/-- A nil handle ends the loop in a panic, whatever follows it. -/
theorem archiveLoop_nil (rest : List (Option (Message × Outcome))) (trace : List Event)
    (toDelete : List Nat) :
    archiveLoop (none :: rest) trace toDelete = ⟨trace, toDelete, true⟩ := rfl

/-! ## The run -/

@[simp] theorem step_trace (c : Event) (r : Run) : (step c r).trace = c :: r.trace := rfl

@[simp] theorem step_exit (c : Event) (r : Run) : (step c r).exit = r.exit := rfl

@[simp] theorem steps_trace (cs : List Event) (r : Run) :
    (steps cs r).trace = cs ++ r.trace := rfl

@[simp] theorem steps_exit (cs : List Event) (r : Run) : (steps cs r).exit = r.exit := rfl

@[simp] theorem defer_exit (c : Event) (r : Run) : (defer c r).exit = r.exit := by
  unfold defer; split <;> simp_all

theorem mem_defer (e c : Event) (r : Run) :
    e ∈ (defer c r).trace ↔
      e ∈ r.trace ∨ (e = c ∧ r.exit ≠ Exit.fatal ∧ r.exit ≠ Exit.hung) := by
  unfold defer
  split
  · rename_i h; simp [h]
  · rename_i h; simp [h]
  · rename_i h1 h2
    have h1' : r.exit ≠ Exit.fatal := fun hf => h1 hf
    have h2' : r.exit ≠ Exit.hung := fun hf => h2 hf
    simp [h1', h2']

theorem not_mem_archiveLoop (ms : List (Option (Message × Outcome))) (trace : List Event)
    (toDelete : List Nat) (e : Event) (he : e.isArchiving = false) (h : e ∉ trace) :
    e ∉ (archiveLoop ms trace toDelete).trace := by
  intro hm
  rcases archiveLoop_trace ms trace toDelete e hm with h1 | h1
  · exact h h1
  · rw [he] at h1; exact absurd h1 (by simp)

theorem fetchAndArchive_fetch_error (env : Env) (remove : Bool) (messages : Nat)
    (h : env.fetch = false) :
    (∀ set, Event.store set ∉ (fetchAndArchive env remove messages).trace) ∧
    Event.expunge ∉ (fetchAndArchive env remove messages).trace ∧
    (Event.waitFetch ∈ (fetchAndArchive env remove messages).trace →
      (fetchAndArchive env remove messages).exit = Exit.fatal) := by
  have hl : ∀ (e : Event), e.isArchiving = false →
      e ∉ (archiveLoop env.messages [] []).trace :=
    fun e he => not_mem_archiveLoop env.messages [] [] e he (by simp)
  unfold fetchAndArchive
  simp only [h, if_true]
  split
  · simp [panic, hl, Event.isArchiving]
  · simp [logFatal, hl, Event.isArchiving]

theorem selectAndFetch_fetch_error (env : Env) (mailbox : GoString) (remove : Bool)
    (h : env.fetch = false) :
    (∀ set, Event.store set ∉ (selectAndFetch env mailbox remove).trace) ∧
    Event.expunge ∉ (selectAndFetch env mailbox remove).trace ∧
    (Event.waitFetch ∈ (selectAndFetch env mailbox remove).trace →
      (selectAndFetch env mailbox remove).exit = Exit.fatal) := by
  unfold selectAndFetch
  simp only
  split
  · simp [logFatal]
  · split
    · simp [logFatal, mem_defer]
    · rename_i messages _
      split
      · simp [ret, mem_defer]
      · obtain ⟨h1, h2, h3⟩ := fetchAndArchive_fetch_error env remove messages h
        simp [mem_defer, h1, h2]
        exact h3

theorem promptAndSelect_fetch_error (env : Env) (h : env.fetch = false) :
    (∀ set, Event.store set ∉ (promptAndSelect env).trace) ∧
    Event.expunge ∉ (promptAndSelect env).trace ∧
    (Event.waitFetch ∈ (promptAndSelect env).trace → (promptAndSelect env).exit = Exit.fatal) := by
  unfold promptAndSelect
  split
  · simp [ret]
  · split
    · simp [logFatal]
    · split
      · simp [ret]
      · split
        · simp [logFatal]
        · split
          · simp [ret]
          · have H := fun mailbox remove => selectAndFetch_fetch_error env mailbox remove h
            simp only [step_trace, step_exit, List.mem_cons, reduceCtorEq, false_or, not_false_eq_true]
            exact ⟨fun set => (H _ _).1 set, (H _ _).2.1, (H _ _).2.2⟩

/-- Claim C3: when the fetch call reports an error, the run issues no Store
request and no Expunge request, whatever the deletion set and the removal
choice, and a run that received the result of the fetch ends in `log.Fatal`. -/
theorem main_fetch_error (env : Env) (h : env.fetch = false) :
    (∀ set, Event.store set ∉ (main env).trace) ∧ Event.expunge ∉ (main env).trace ∧
    (Event.waitFetch ∈ (main env).trace → (main env).exit = Exit.fatal) := by
  obtain ⟨h1, h2, h3⟩ := promptAndSelect_fetch_error env h
  unfold main
  split
  · simp [exitWithError, logFatal]
  · split
    · simp [exitWithError, logFatal, mem_defer]
    · split
      · simp [hang, mem_defer]
      · split
        · simp [exitWithError, logFatal, mem_defer]
        · simp [mem_defer, h1, h2]
          exact h3

theorem removeOnServer_false (env : Env) (toDelete : List Nat) (rest : Run) :
    removeOnServer env false toDelete rest = rest := by
  simp [removeOnServer]

theorem fetchAndArchive_no_removal (env : Env) (messages : Nat) :
    (∀ set, Event.store set ∉ (fetchAndArchive env false messages).trace) ∧
    Event.expunge ∉ (fetchAndArchive env false messages).trace := by
  have hl : ∀ (e : Event), e.isArchiving = false →
      e ∉ (archiveLoop env.messages [] []).trace :=
    fun e he => not_mem_archiveLoop env.messages [] [] e he (by simp)
  unfold fetchAndArchive
  simp only [removeOnServer_false]
  split
  · simp [panic, hl, Event.isArchiving]
  · split
    · simp [logFatal, hl, Event.isArchiving]
    · simp [ret, hl, Event.isArchiving]

theorem selectAndFetch_no_removal (env : Env) (mailbox : GoString) :
    (∀ set, Event.store set ∉ (selectAndFetch env mailbox false).trace) ∧
    Event.expunge ∉ (selectAndFetch env mailbox false).trace := by
  unfold selectAndFetch
  simp only
  split
  · simp [logFatal]
  · split
    · simp [logFatal, mem_defer]
    · rename_i messages _
      split
      · simp [ret, mem_defer]
      · obtain ⟨h1, h2⟩ := fetchAndArchive_no_removal env messages
        simp [mem_defer, h1, h2]

theorem promptAndSelect_no_removal (env : Env)
    (h : env.removePrompt = Prompt.selected (ascii "No")) :
    (∀ set, Event.store set ∉ (promptAndSelect env).trace) ∧
    Event.expunge ∉ (promptAndSelect env).trace := by
  have hno : decide (ascii "No" = ascii "Yes") = false := by decide
  have hc : ¬ (ascii "No" = ascii "Cancel" ∨ ascii "No" = []) := by decide
  unfold promptAndSelect
  rw [h]
  simp only [hno, if_neg hc]
  split
  · simp [ret]
  · split
    · simp [logFatal]
    · split
      · simp [ret]
      · have H := fun mailbox => selectAndFetch_no_removal env mailbox
        simp only [step_trace, List.mem_cons, reduceCtorEq, false_or, not_false_eq_true]
        exact ⟨fun set => (H _).1 set, (H _).2⟩

/-- Claim C9: with the removal choice "No" the run issues no Store request and
no Expunge request, whatever the message stream and the outcome of the
archiving loop. -/
theorem main_no_removal (env : Env) (h : env.removePrompt = Prompt.selected (ascii "No")) :
    (∀ set, Event.store set ∉ (main env).trace) ∧ Event.expunge ∉ (main env).trace := by
  obtain ⟨h1, h2⟩ := promptAndSelect_no_removal env h
  unfold main
  split
  · simp [exitWithError, logFatal]
  · split
    · simp [exitWithError, logFatal, mem_defer]
    · split
      · simp [hang, mem_defer]
      · split
        · simp [exitWithError, logFatal, mem_defer]
        · simp [mem_defer, h1, h2]

theorem main_no_removal_witness :
    noRemovalEnv.removePrompt = Prompt.selected (ascii "No") ∧
    (main noRemovalEnv).exit = Exit.returned ∧
    (archiveLoop noRemovalEnv.messages [] []).toDelete = [1, 3] ∧
    ((∀ set, Event.store set ∉ (main noRemovalEnv).trace) ∧
      Event.expunge ∉ (main noRemovalEnv).trace) :=
  ⟨rfl, by decide, by decide, main_no_removal noRemovalEnv rfl⟩

theorem main_fetch_error_witness :
    fetchErrorEnv.fetch = false ∧
    fetchErrorEnv.removePrompt = Prompt.selected (ascii "Yes") ∧
    (archiveLoop fetchErrorEnv.messages [] []).toDelete = [1, 3] ∧
    Event.waitFetch ∈ (main fetchErrorEnv).trace ∧
    ((∀ set, Event.store set ∉ (main fetchErrorEnv).trace) ∧
      Event.expunge ∉ (main fetchErrorEnv).trace ∧
      (Event.waitFetch ∈ (main fetchErrorEnv).trace → (main fetchErrorEnv).exit = Exit.fatal)) :=
  ⟨rfl, rfl, by decide, by decide, main_fetch_error fetchErrorEnv rfl⟩

/-- Claim C2 at a run whose login fails: `exitWithError` ends the process in
`log.Fatal`, that is `os.Exit(1)`, which does not run the deferred
`c.Logout()`; the connection was opened and no logout is in the trace. -/
theorem login_failure_skips_logout :
    main loginFailureEnv
      = { trace := [Event.dialTLS, Event.login, Event.spinnerStop, Event.logFatal],
          exit := Exit.fatal } ∧
    Event.logout ∉ (main loginFailureEnv).trace := by
  decide

/-- Claim C10 at a stream with a nil handle in front of message 3: line 226
reads `msg.SeqNum` of the nil handle before the guard of line 229, so the loop
panics there; message 3 is not handled and the run ends in the panic, after
the deferred calls. -/
theorem nil_handle_panics :
    archiveLoop [none, some (scenarioMessage 3 "Re: Hi" scenarioDate,
      { create := true, copy := true, compress := true, remove := true })] [] []
      = { trace := [], toDelete := [], panicked := true } ∧
    main nilHandleEnv
      = { trace := [.dialTLS, .login, .list, .spinnerStop, .promptMailbox, .promptRemove,
            .mkdirAll (ascii "backups/alice@example.com/INBOX"), .select (ascii "INBOX"),
            .fetch 2,
            .create (ascii "email-1_20250101120000_alice@example.com_Hi.eml"),
            .copy (ascii "email-1_20250101120000_alice@example.com_Hi.eml"),
            .compressGZIP (ascii "email-1_20250101120000_alice@example.com_Hi.eml"),
            .remove (ascii "email-1_20250101120000_alice@example.com_Hi.eml"),
            .addNum 1, .spinnerStop, .logout],
          exit := .panicked } := by
  decide

/-- The end-to-end scenario with removal requested: both messages are
archived under the names with the colon stripped, and the Store request names
the set of 1 and 3. -/
theorem scenario_run :
    main scenarioEnv
      = { trace := [.dialTLS, .login, .list, .spinnerStop, .promptMailbox, .promptRemove,
            .mkdirAll (ascii "backups/alice@example.com/INBOX"), .select (ascii "INBOX"),
            .fetch 2,
            .create (ascii "email-1_20250101120000_alice@example.com_Hi.eml"),
            .copy (ascii "email-1_20250101120000_alice@example.com_Hi.eml"),
            .compressGZIP (ascii "email-1_20250101120000_alice@example.com_Hi.eml"),
            .remove (ascii "email-1_20250101120000_alice@example.com_Hi.eml"),
            .addNum 1,
            .create (ascii "email-3_20250101120000_alice@example.com_Re Hi.eml"),
            .copy (ascii "email-3_20250101120000_alice@example.com_Re Hi.eml"),
            .compressGZIP (ascii "email-3_20250101120000_alice@example.com_Re Hi.eml"),
            .remove (ascii "email-3_20250101120000_alice@example.com_Re Hi.eml"),
            .addNum 3, .waitFetch, .store [1, 3], .expunge, .spinnerStop, .logout],
          exit := .returned } := by
  decide

theorem logout_not_mem_removeOnServer (env : Env) (remove : Bool) (toDelete : List Nat) :
    Event.logout ∉ (removeOnServer env remove toDelete ret).trace := by
  unfold removeOnServer
  split
  · simp only [step_trace, steps_trace, List.mem_cons, List.mem_append, reduceCtorEq, false_or,
      not_or]
    refine ⟨?_, ?_, ?_⟩
    · split <;> simp
    · split <;> simp
    · simp [ret]
  · simp [ret]

theorem logout_not_mem_fetchAndArchive (env : Env) (remove : Bool) (messages : Nat) :
    Event.logout ∉ (fetchAndArchive env remove messages).trace := by
  have hl : Event.logout ∉ (archiveLoop env.messages [] []).trace :=
    not_mem_archiveLoop env.messages [] [] _ rfl (by simp)
  unfold fetchAndArchive
  simp only
  split
  · simp [panic, hl]
  · split
    · simp [logFatal, hl]
    · simp [hl, logout_not_mem_removeOnServer]

theorem logout_not_mem_selectAndFetch (env : Env) (mailbox : GoString) (remove : Bool) :
    Event.logout ∉ (selectAndFetch env mailbox remove).trace := by
  unfold selectAndFetch
  simp only
  split
  · simp [logFatal]
  · split
    · simp [logFatal, mem_defer]
    · split
      · simp [ret, mem_defer]
      · simp [mem_defer, logout_not_mem_fetchAndArchive]

theorem logout_not_mem_promptAndSelect (env : Env) :
    Event.logout ∉ (promptAndSelect env).trace := by
  unfold promptAndSelect
  split
  · simp [ret]
  · split
    · simp [logFatal]
    · split
      · simp [ret]
      · split
        · simp [logFatal]
        · split
          · simp [ret]
          · simp [logout_not_mem_selectAndFetch]

/-- The deferred logout runs exactly in the runs that opened the connection
and ended in a return or in a panic. -/
theorem logout_mem_iff (env : Env) :
    Event.logout ∈ (main env).trace ↔
      env.dial = true ∧ (main env).exit ≠ Exit.fatal ∧ (main env).exit ≠ Exit.hung := by
  have h := logout_not_mem_promptAndSelect env
  unfold main
  split
  · rename_i hd; simp [exitWithError, logFatal, hd]
  · rename_i hd
    have hd' : env.dial = true := by simpa using hd
    split
    · simp [exitWithError, logFatal, mem_defer]
    · split
      · simp [hang, mem_defer]
      · split
        · simp [exitWithError, logFatal, mem_defer]
        · simp [mem_defer, h, hd']

/-! ## The set of the Store request -/

theorem store_mem_removeOnServer (env : Env) (remove : Bool) (toDelete set : List Nat) :
    Event.store set ∈ (removeOnServer env remove toDelete ret).trace ↔
      remove = true ∧ set = toDelete := by
  unfold removeOnServer
  split
  · rename_i h
    simp only [step_trace, steps_trace, List.mem_cons, List.mem_append, Event.store.injEq,
      reduceCtorEq, false_or, h, true_and]
    constructor
    · rintro (h1 | h1 | h1 | h1)
      · exact h1
      · split at h1 <;> simp at h1
      · split at h1 <;> simp at h1
      · simp [ret] at h1
    · intro h1; exact Or.inl h1
  · rename_i h
    simp [ret, h]

theorem store_mem_fetchAndArchive (env : Env) (remove : Bool) (messages : Nat)
    (set : List Nat) :
    Event.store set ∈ (fetchAndArchive env remove messages).trace ↔
      (archiveLoop env.messages [] []).panicked = false ∧ env.fetch = true ∧ remove = true
        ∧ set = (archiveLoop env.messages [] []).toDelete := by
  have hl : Event.store set ∉ (archiveLoop env.messages [] []).trace :=
    not_mem_archiveLoop env.messages [] [] _ rfl (by simp)
  unfold fetchAndArchive
  simp only
  split
  · rename_i hp; simp [panic, hl, hp]
  · rename_i hp
    have hp' : (archiveLoop env.messages [] []).panicked = false := by simpa using hp
    split
    · rename_i hf; simp [logFatal, hl, hf]
    · rename_i hf
      have hf' : env.fetch = true := by simpa using hf
      simp [hl, hp', hf', store_mem_removeOnServer]

theorem store_mem_selectAndFetch (env : Env) (mailbox : GoString) (remove : Bool)
    (set : List Nat) :
    Event.store set ∈ (selectAndFetch env mailbox remove).trace ↔
      env.mkdirAll = true ∧ ∃ messages, env.select = some messages ∧ messages ≠ 0 ∧
        Event.store set ∈ (fetchAndArchive env remove messages).trace := by
  unfold selectAndFetch
  simp only
  split
  · rename_i h; simp [logFatal, h]
  · rename_i h
    have h' : env.mkdirAll = true := by simpa using h
    split
    · rename_i hs; simp [logFatal, mem_defer, hs]
    · rename_i messages hs
      split
      · rename_i h0; simp [ret, mem_defer, hs, h0]
      · rename_i h0; simp [mem_defer, hs, h0, h']

theorem store_mem_promptAndSelect (env : Env) (set : List Nat) :
    Event.store set ∈ (promptAndSelect env).trace ↔
      0 < env.mailboxes.length ∧ ∃ mailbox, env.mailboxPrompt = Prompt.selected mailbox ∧
        mailbox ≠ [] ∧ ∃ selection, env.removePrompt = Prompt.selected selection ∧
          selection ≠ ascii "Cancel" ∧ selection ≠ [] ∧
          Event.store set ∈
            (selectAndFetch env mailbox (decide (selection = ascii "Yes"))).trace := by
  unfold promptAndSelect
  split
  · rename_i h; simp [ret, h]
  · rename_i h
    have h' : 0 < env.mailboxes.length := Nat.pos_of_ne_zero h
    split
    · rename_i hp; simp [logFatal, hp]
    · rename_i mailbox hp
      split
      · rename_i hm; simp [ret, hp, hm]
      · rename_i hm
        split
        · rename_i hr; simp [logFatal, hr]
        · rename_i selection hr
          split
          · rename_i hc
            simp only [ret, step_trace, List.mem_cons, reduceCtorEq, List.not_mem_nil, or_self,
              false_iff, not_and, not_exists]
            intro _ mb hmb _ sel hsel h1 h2
            simp only [hr, Prompt.selected.injEq] at hsel
            subst hsel
            rcases hc with hc | hc
            · exact absurd hc h1
            · exact absurd hc h2
          · rename_i hc
            have hc1 : selection ≠ ascii "Cancel" := fun hx => hc (Or.inl hx)
            have hc2 : selection ≠ [] := fun hx => hc (Or.inr hx)
            simp [hp, hm, hr, h', hc1, hc2]

/-- The Store request is issued exactly in the runs that reach the removal,
with the deletion set of the archiving loop. -/
theorem store_mem_main (env : Env) (set : List Nat) :
    Event.store set ∈ (main env).trace ↔
      env.reachesRemoval ∧ (archiveLoop env.messages [] []).panicked = false ∧
        set = (archiveLoop env.messages [] []).toDelete := by
  have hmain : Event.store set ∈ (main env).trace ↔
      env.dial = true ∧ env.mailboxes.length ≤ 50 ∧ env.login = true ∧ env.list = true ∧
        Event.store set ∈ (promptAndSelect env).trace := by
    unfold main
    split
    · rename_i hd; simp [exitWithError, logFatal, hd]
    · rename_i hd
      have hd' : env.dial = true := by simpa using hd
      split
      · rename_i hl; simp [exitWithError, logFatal, mem_defer, hl]
      · rename_i hl
        have hl' : env.login = true := by simpa using hl
        split
        · rename_i h50
          simp only [hang, mem_defer, step_trace, step_exit, List.mem_cons, reduceCtorEq,
            List.not_mem_nil, or_self, false_and, false_iff, not_and]
          intro _ hle
          omega
        · rename_i h50
          have h50' : env.mailboxes.length ≤ 50 := Nat.le_of_not_lt h50
          split
          · rename_i hli; simp [exitWithError, logFatal, mem_defer, hli]
          · rename_i hli
            have hli' : env.list = true := by simpa using hli
            simp [mem_defer, hd', hl', hli', h50']
  rw [hmain, store_mem_promptAndSelect]
  unfold Env.reachesRemoval
  constructor
  · rintro ⟨hd, h50, hl, hli, hpos, mailbox, hp, hm, selection, hr, _, _, hs⟩
    rw [store_mem_selectAndFetch] at hs
    obtain ⟨hmk, messages, hsel, h0, hs⟩ := hs
    rw [store_mem_fetchAndArchive] at hs
    obtain ⟨hpan, hf, hyes, hset⟩ := hs
    have hyes' : selection = ascii "Yes" := by simpa using hyes
    subst hyes'
    rw [hp, hsel]
    exact ⟨⟨hd, hl, hli, hpos, h50, hm, hr, hmk, h0, hf⟩, hpan, hset⟩
  · rintro ⟨⟨hd, hl, hli, hpos, h50, hm, hr, hmk, h0, hf⟩, hpan, hset⟩
    cases hp : env.mailboxPrompt with
    | failed => rw [hp] at hm; exact absurd hm (by simp)
    | selected mailbox =>
      rw [hp] at hm
      cases hsel : env.select with
      | none => rw [hsel] at h0; exact absurd h0 (by simp)
      | some messages =>
        rw [hsel] at h0
        refine ⟨hd, h50, hl, hli, hpos, mailbox, rfl, hm, ascii "Yes", hr, by decide,
          by decide, ?_⟩
        rw [store_mem_selectAndFetch]
        refine ⟨hmk, messages, hsel, h0, ?_⟩
        rw [store_mem_fetchAndArchive]
        exact ⟨hpan, hf, by decide, hset⟩

/-- Claim C1, amended: for a stream without nil handles the archiving loop
ends without a panic; its deletion set holds exactly the sequence numbers of
the messages whose file was created and whose body was copied, whatever the
compression and the removal of the intermediate file did; and a Store request
of the run carries exactly this set, in every run that reaches the removal. -/
theorem deletion_set_written (env : Env) (ms : List (Message × Outcome))
    (h : env.messages = ms.map some) :
    (archiveLoop env.messages [] []).panicked = false ∧
    (archiveLoop env.messages [] []).toDelete
      = (ms.filter (fun p => written p.1 p.2)).map (fun p => p.1.SeqNum) ∧
    (∀ n, n ∈ (archiveLoop env.messages [] []).toDelete
      ↔ ∃ p ∈ ms, written p.1 p.2 = true ∧ p.1.SeqNum = n) ∧
    (∀ set, Event.store set ∈ (main env).trace ↔
      env.reachesRemoval ∧
        set = (ms.filter (fun p => written p.1 p.2)).map (fun p => p.1.SeqNum)) := by
  obtain ⟨h1, h2, h3⟩ := archiveLoop_toDelete ms
  rw [← h] at h1 h2 h3
  refine ⟨h1, h2, h3, ?_⟩
  intro set
  rw [store_mem_main, h2]
  simp [h1]

theorem deletion_set_written_witness :
    mixedEnv.messages
      = [(scenarioMessage 1 "Hi" scenarioDate,
            ({ create := true, copy := true, compress := true, remove := true } : Outcome)),
         (scenarioMessage 2 "" scenarioDate,
            { create := false, copy := true, compress := true, remove := true }),
         (scenarioMessage 3 "Re: Hi" scenarioDate,
            { create := true, copy := true, compress := false, remove := true })].map some ∧
    mixedEnv.reachesRemoval ∧
    (archiveLoop mixedEnv.messages [] []).toDelete = [1, 3] ∧
    Event.store [1, 3] ∈ (main mixedEnv).trace ∧
    Event.store [1, 2, 3] ∉ (main mixedEnv).trace ∧
    (∀ set, Event.store set ∈ (main mixedEnv).trace ↔
      mixedEnv.reachesRemoval ∧ set = [1, 3]) :=
  ⟨rfl, by decide, by decide, by decide, by decide,
    (deletion_set_written mixedEnv
      [(scenarioMessage 1 "Hi" scenarioDate,
          { create := true, copy := true, compress := true, remove := true }),
       (scenarioMessage 2 "" scenarioDate,
          { create := false, copy := true, compress := true, remove := true }),
       (scenarioMessage 3 "Re: Hi" scenarioDate,
          { create := true, copy := true, compress := false, remove := true })] rfl).2.2.2⟩

/-! ## The claims on `sanitize` -/

/-- On a string of ASCII bytes the byte truncation of `sanitize` is the
truncation to 50 characters of the spec. -/
theorem sanitize_eq_spec_of_ascii (s : GoString) (h : ∀ b ∈ s, b < RuneSelf) :
    sanitize s = sanitizeSpec s := by
  rw [sanitize_eq, sanitizeSpec, takeRunes_ascii]
  intro b hb
  rw [replaceAllIllegal_eq_filter] at hb
  exact h b (List.mem_of_mem_filter hb)

/-- Claim C4: for every input, the empty string included, `sanitize` returns
at most 50 bytes, hence at most 50 characters; no byte and no character of the
result is a forbidden character; and an input made of forbidden characters
only gives the empty string. -/
theorem sanitize_bounded_clean (s : GoString) :
    (sanitize s).length ≤ 50 ∧ runeCount (sanitize s) ≤ 50 ∧
    (∀ b ∈ sanitize s, illegal b = false) ∧ (∀ r ∈ runes (sanitize s), illegal r = false) ∧
    ((∀ b ∈ s, illegal b = true) → sanitize s = []) := by
  refine ⟨sanitize_length_le s, ?_, sanitize_clean s, ?_, ?_⟩
  · exact Nat.le_trans (runeCount_le_length _) (sanitize_length_le s)
  · exact runesAux_clean _ _ (sanitize_clean s)
  · intro h
    have hnil : replaceAllIllegal s = [] := by
      rw [replaceAllIllegal_eq_filter, List.filter_eq_nil_iff]
      intro b hb
      simp [h b hb]
    rw [sanitize_eq, hnil]
    rfl

theorem sanitize_bounded_clean_witness :
    (∀ b ∈ ascii "<>:\"/\\|?*\r\n", illegal b = true) ∧
    sanitize (ascii "<>:\"/\\|?*\r\n") = [] ∧
    sanitize [] = [] :=
  ⟨by decide, (sanitize_bounded_clean (ascii "<>:\"/\\|?*\r\n")).2.2.2.2 (by decide),
    (sanitize_bounded_clean []).2.2.2.2 (by simp)⟩

/-- Claim C5: `sanitize` is idempotent on every byte string, also when the
truncation cuts a character of several bytes or leaves white space at the
cut. -/
theorem sanitize_idempotent (x : GoString) : sanitize (sanitize x) = sanitize x := by
  -- the second call strips nothing and cuts nothing
  have hstrip := replaceAllIllegal_id (sanitize x) (sanitize_clean x)
  have hshort := sanitize_length_le x
  rw [sanitize_eq (sanitize x), hstrip, List.take_of_length_le hshort]
  -- and `TrimSpace` finds no white space at either end
  exact TrimSpace_id _ (sanitize_trimmed x)

/-- Claim C6 at a string of 49 letters `a` followed by `é` (bytes C3 A9): the
stripped string has 50 characters and 51 bytes; the spec keeps it whole, and
`sanitize` cuts the last character in two and returns its first byte. -/
theorem sanitize_cuts_character :
    runeCount (List.replicate 49 0x61 ++ [0xC3, 0xA9]) = 50 ∧
    sanitizeSpec (List.replicate 49 0x61 ++ [0xC3, 0xA9])
      = List.replicate 49 0x61 ++ [0xC3, 0xA9] ∧
    sanitize (List.replicate 49 0x61 ++ [0xC3, 0xA9]) = List.replicate 49 0x61 ++ [0xC3] ∧
    sanitize (List.replicate 49 0x61 ++ [0xC3, 0xA9])
      ≠ sanitizeSpec (List.replicate 49 0x61 ++ [0xC3, 0xA9]) := by
  decide

/-- The values of `sanitize` around the cut at 50 bytes: a space at the cut is
trimmed, a text of 26 characters `é` is cut to 25, and an ideographic space
(bytes E3 80 80) that is cut in two leaves two bytes that are no white space. -/
theorem sanitize_at_the_cut :
    sanitize (List.replicate 49 0x61 ++ ascii " b") = List.replicate 49 0x61 ∧
    sanitize (ascii " " ++ List.replicate 50 0x61) = List.replicate 49 0x61 ∧
    sanitize (List.replicate 26 [0xC3, 0xA9]).flatten = (List.replicate 25 [0xC3, 0xA9]).flatten ∧
    sanitize (List.replicate 48 0x61 ++ [0xE3, 0x80, 0x80])
      = List.replicate 48 0x61 ++ [0xE3, 0x80] := by
  decide

end ImapBackup
